import Mathlib

/-!
Verification development for the contextmesh incremental code-symbol indexer.

The development shallowly embeds the core of the Rust sources:

* `src/symbol.rs`            — the `Symbol` entity and its identity hash;
* `src/indexer/file_hashes.rs`   — `FileHashManager`;
* `src/indexer/symbol_store.rs`  — `SymbolStore`;
* `src/indexer/dependecy_resolver.rs` — `DependencyResolver` (unresolved table);
* `src/indexer/mod.rs`       — `Indexer` with `index_file`,
  `remove_deleted_symbols_in_file`, `parse_and_index_file`,
  `resolve_one_dependency`, `resolve_new_symbols_dependencies`,
  `recheck_unresolved`;
* `src/parser/mod.rs`        — `collect_definitions_and_imports` and
  `gather_references` over a tree-sitter syntax tree;
* `src/parser/rust_indexer.rs`   — the Rust `LanguageIndexer`.

Modelling conventions:

* Rust `HashMap<String, V>` is modelled as an association list
  `List (String × V)` with first-match lookup and replace-in-place insert.
* Rust `HashSet<String>` fields are modelled as `List String` manipulated
  only through the duplicate-free `hsInsert` and membership.
* The hex SHA-256 digests (`Symbol::hash`, `calculate_file_hash`) are
  modelled as injective fingerprints of the hashed data; the code relies on
  the digests being collision-free, and the model makes that reliance exact
  by using a separator-tagged concatenation (for the symbol identity) and
  the file content itself (for the file fingerprint).
* File-system reads are passed in as explicit parameters: the content of a
  file is an `Option String` (`none` models an unreadable / vanished file)
  and the tree-sitter parse of the content is a function
  `String → Option (List Symbol)` (`none` models a parse failure).
-/

namespace ContextMesh

/-- Symbol entity of `src/symbol.rs`: one named definition. `dependencies`
and `used_by` are `HashSet<String>` in the source, modelled as lists that
the indexer mutates only through duplicate-free insertion. -/
structure Symbol where
  name : String
  node_kind : String
  file_path : String
  line_number : Nat
  start_byte : Nat
  end_byte : Nat
  dependencies : List String
  used_by : List String
deriving Repr, DecidableEq, Inhabited

/-- Identity of a symbol, `Symbol::hash` in `src/symbol.rs`: the hex
SHA-256 of name, node_kind, file_path, line_number, start_byte, end_byte.
The digest is modelled as an injective encoding of the same six fields;
the engine treats the digest as a collision-free key. -/
def Symbol.hash (s : Symbol) : String :=
  s.name ++ "|" ++ s.node_kind ++ "|" ++ s.file_path ++ "|" ++
    toString s.line_number ++ "|" ++ toString s.start_byte ++ "|" ++
    toString s.end_byte

/-! ### Association-list model of `HashMap<String, V>` -/

/-- First-match lookup, the model of `HashMap::get`. -/
def mapLookup {α : Type} (m : List (String × α)) (k : String) : Option α :=
  match m with
  | [] => none
  | (k', v) :: rest => if k' = k then some v else mapLookup rest k

/-- Replace-or-append insert, the model of `HashMap::insert`. -/
def mapInsert {α : Type} (k : String) (v : α) (m : List (String × α)) :
    List (String × α) :=
  match m with
  | [] => [(k, v)]
  | (k', v') :: rest =>
      if k' = k then (k, v) :: rest else (k', v') :: mapInsert k v rest

/-- Model of `map.entry(k).or_default().push(v)` on a `HashMap<String, Vec<String>>`. -/
def mapPush (k v : String) (m : List (String × List String)) :
    List (String × List String) :=
  match m with
  | [] => [(k, [v])]
  | (k', l) :: rest =>
      if k' = k then (k', l ++ [v]) :: rest else (k', l) :: mapPush k v rest

/-- Duplicate-free insertion, the model of `HashSet::insert`. -/
def hsInsert (l : List String) (x : String) : List String :=
  if x ∈ l then l else l ++ [x]

/-! ### SymbolStore (`src/indexer/symbol_store.rs`) -/

/-- The store maps symbol identities to symbols. -/
abbrev Store : Type := List (String × Symbol)

/-- `SymbolStore::add_symbol`: insert the symbol under its identity. -/
def addSymbol (st : Store) (s : Symbol) : Store :=
  mapInsert s.hash s st

/-- The sweep of `SymbolStore::remove_symbol`: drop the entry of the
removed identity and erase that identity from every remaining used_by set. -/
def sweepStore (st : Store) (h : String) : Store :=
  ((st : List (String × Symbol)).filter (fun e => e.1 ≠ h)).map
    (fun e => (e.1, { e.2 with used_by := e.2.used_by.filter (· ≠ h) }))

/-- `SymbolStore::remove_symbol`: remove the entry and, when it existed,
sweep the removed identity out of every remaining used_by set. -/
def removeSymbol (st : Store) (h : String) : Option Symbol × Store :=
  match mapLookup st h with
  | none => (none, st)
  | some s => (some s, sweepStore st h)

/-- `SymbolStore::add_used_by`: insert the caller into the used_by set of
the callee when the callee is present. -/
def addUsedBy (st : Store) (callee caller : String) : Store :=
  match mapLookup st callee with
  | some s => mapInsert callee { s with used_by := hsInsert s.used_by caller } st
  | none => st

/-- `SymbolStore::build_name_map`: name → list of identities. -/
def buildNameMap (st : Store) : List (String × List String) :=
  (st : List (String × Symbol)).foldl (fun m e => mapPush e.2.name e.1 m) []

/-! ### FileHashManager (`src/indexer/file_hashes.rs`) -/

/-- The hex SHA-256 of the full file content (`calculate_file_hash`),
modelled as an injective fingerprint; `none` models an unreadable file. -/
def fileFingerprint (content : String) : String := content

def calculateFileHash (content : Option String) : Option String :=
  content.map fileFingerprint

/-- `FileHashManager::has_changed`. -/
def hasChanged (fh : List (String × String)) (path newHash : String) : Bool :=
  match mapLookup fh path with
  | some existing => existing ≠ newHash
  | none => true

/-! ### DependencyResolver (`src/indexer/dependecy_resolver.rs`) -/

/-- `DependencyResolver::add`: append the missing name to the caller entry. -/
def drAdd (u : List (String × List String)) (callerHash missingName : String) :
    List (String × List String) :=
  mapPush callerHash missingName u

/-! ### Indexer (`src/indexer/mod.rs`) -/

/-- The `Indexer` aggregate: file hashes, symbol store, unresolved table. -/
structure Indexer where
  file_hashes : List (String × String)
  symbol_store : Store
  unresolved : List (String × List String)
deriving Repr, DecidableEq, Inhabited

/-- `Indexer::remove_deleted_symbols_in_file`: remove every stored symbol
whose file_path is the given path (the local copy of the name map that the
source also updates is dropped on return and has no effect on the index). -/
def removeDeletedSymbolsInFile (idx : Indexer) (path : String) : Indexer :=
  let oldHashes :=
    (idx.symbol_store : List (String × Symbol)).filterMap
      (fun e => if e.2.file_path = path then some e.1 else none)
  { idx with
    symbol_store := oldHashes.foldl (fun st h => (removeSymbol st h).2) idx.symbol_store }

/-- `Indexer::build_local_name_map` over the freshly parsed symbols. -/
def buildLocalNameMap (symbols : List Symbol) : List (String × List String) :=
  symbols.foldl (fun m s => mapPush s.name s.hash m) []

/-- `Indexer::insert_new_symbols`: store each new symbol and push its
identity into the global name map. -/
def insertNewSymbols (st : Store) (gmap : List (String × List String))
    (newSymbols : List Symbol) : Store × List (String × List String) :=
  newSymbols.foldl (fun acc s => (addSymbol acc.1 s, mapPush s.name s.hash acc.2)) (st, gmap)

/-- `Indexer::resolve_one_dependency`: local candidates if the local map
has any entry for the name, else global candidates, else empty. -/
def resolveOneDependency (rawName : String)
    (localMap globalMap : List (String × List String)) : List String :=
  match mapLookup localMap rawName with
  | some localCandidates => localCandidates
  | none =>
      match mapLookup globalMap rawName with
      | some globalCandidates => globalCandidates
      | none => []

/-- Body of the per-raw-name loop of
`Indexer::resolve_new_symbols_dependencies`: empty candidate set goes to
the unresolved table; otherwise every candidate other than the symbol
itself becomes a dependency and a used_by link. The accumulator is
(new dependency set, store, unresolved table). -/
def resolveDepStep (localMap globalMap : List (String × List String))
    (thisHash : String)
    (acc : List String × Store × List (String × List String)) (rawName : String) :
    List String × Store × List (String × List String) :=
  let candidates := resolveOneDependency rawName localMap globalMap
  if candidates.isEmpty then
    (acc.1, acc.2.1, drAdd acc.2.2 thisHash rawName)
  else
    candidates.foldl
      (fun a c =>
        if c ≠ thisHash then
          (hsInsert a.1 c, addUsedBy a.2.1 c thisHash, a.2.2)
        else a)
      acc

/-- Per-symbol body of `Indexer::resolve_new_symbols_dependencies`: remove
the symbol, translate its raw dependency names, reinsert it with the
resolved identities. -/
def resolveSymbol (localMap globalMap : List (String × List String))
    (acc : Store × List (String × List String)) (sym : Symbol) :
    Store × List (String × List String) :=
  let thisHash := sym.hash
  match removeSymbol acc.1 thisHash with
  | (none, _) => acc
  | (some updatedSym, st1) =>
      let oldDeps := updatedSym.dependencies
      let r := oldDeps.foldl (resolveDepStep localMap globalMap thisHash) ([], st1, acc.2)
      (addSymbol r.2.1 { updatedSym with dependencies := r.1 }, r.2.2)

/-- `Indexer::resolve_new_symbols_dependencies`. -/
def resolveNewSymbolsDependencies (idx : Indexer) (newSymbols : List Symbol)
    (localMap globalMap : List (String × List String)) : Indexer :=
  let r := newSymbols.foldl (resolveSymbol localMap globalMap)
    (idx.symbol_store, idx.unresolved)
  { idx with symbol_store := r.1, unresolved := r.2 }

/-- `Indexer::parse_and_index_file`: parse, build name maps, insert,
resolve, record the file hash. `none` models a parse failure, which the
source propagates as an error before the hash is recorded. -/
def parseAndIndexFile (idx : Indexer) (path newHash content : String)
    (parse : String → Option (List Symbol)) : Option Indexer :=
  match parse content with
  | none => none
  | some newSymbols =>
      let globalMap0 := buildNameMap idx.symbol_store
      let localMap := buildLocalNameMap newSymbols
      let r := insertNewSymbols idx.symbol_store globalMap0 newSymbols
      let idx2 := resolveNewSymbolsDependencies
        { idx with symbol_store := r.1 } newSymbols localMap r.2
      some { idx2 with file_hashes := mapInsert path newHash idx2.file_hashes }

/-- `Indexer::index_file`: hash the content (an unreadable file is skipped
with a warning), and parse only when the fingerprint changed, evicting the
old symbols of the file first. -/
def indexFile (idx : Indexer) (path : String) (content : Option String)
    (parse : String → Option (List Symbol)) : Option Indexer :=
  match calculateFileHash content with
  | none => some idx
  | some newHash =>
      if hasChanged idx.file_hashes path newHash then
        parseAndIndexFile (removeDeletedSymbolsInFile idx path) path newHash
          (content.getD "") parse
      else
        some idx

/-- The condition under which `Indexer::index_file` takes the
evict-parse-insert-resolve branch (the guard of the source's
`if self.file_hashes.has_changed(..)` after a successful content hash). -/
def indexFileParses (idx : Indexer) (path : String) (content : Option String) : Bool :=
  match calculateFileHash content with
  | none => false
  | some newHash => hasChanged idx.file_hashes path newHash

/-- Per-candidate body of the resolved branch of `recheck_unresolved`: a
dependency hash different from the caller is inserted into the caller
dependency set and queued as a pending used_by link. The accumulator is
(caller symbol, leftover names, pending links). -/
def recheckLinkStep (callerHash : String)
    (a : Symbol × List String × List (String × String)) (depH : String) :
    Symbol × List String × List (String × String) :=
  if depH ≠ callerHash then
    ({ a.1 with dependencies := hsInsert a.1.dependencies depH },
      a.2.1, a.2.2 ++ [(depH, callerHash)])
  else a

/-- Per-missing-name body of `Indexer::recheck_unresolved`: names found in
the global map contribute dependencies and pending used_by links, the rest
go to the leftover list. -/
def recheckNameStep (globalMap : List (String × List String)) (callerHash : String)
    (acc : Symbol × List String × List (String × String)) (rawName : String) :
    Symbol × List String × List (String × String) :=
  match mapLookup globalMap rawName with
  | some depHashes => depHashes.foldl (recheckLinkStep callerHash) acc
  | none => (acc.1, acc.2.1 ++ [rawName], acc.2.2)

/-- Application of one pending used_by link. -/
def applyLink (s : Store) (l : String × String) : Store :=
  addUsedBy s l.1 l.2

/-- Per-caller body of `Indexer::recheck_unresolved`: remove the caller to
mutate it offline, walk its missing names, reinsert, apply the pending
used_by links, and keep the leftover names when there are any. The
accumulator is (store, still-unresolved table). -/
def recheckCaller (globalMap : List (String × List String))
    (acc : Store × List (String × List String)) (entry : String × List String) :
    Store × List (String × List String) :=
  match removeSymbol acc.1 entry.1 with
  | (none, _) => acc
  | (some callerSym, st1) =>
      let r := entry.2.foldl (recheckNameStep globalMap entry.1) (callerSym, [], [])
      let st2 := addSymbol st1 r.1
      let st3 := r.2.2.foldl applyLink st2
      let still := if r.2.1.isEmpty then acc.2 else mapInsert entry.1 r.2.1 acc.2
      (st3, still)

/-- `Indexer::recheck_unresolved`: drain the unresolved table, build the
name map once, process every caller, and replace the unresolved table with
the accumulated leftovers. -/
def recheckUnresolved (idx : Indexer) : Indexer :=
  let drained := idx.unresolved
  let globalMap := buildNameMap idx.symbol_store
  let r := drained.foldl (recheckCaller globalMap) (idx.symbol_store, [])
  { idx with symbol_store := r.1, unresolved := r.2 }

/-! ### Syntax tree model (`tree_sitter::Node` as used by `src/parser/mod.rs`)

A node carries its kind, start row, start and end byte, the field tag
under which it sits in its parent (for `child_by_field_name`), its source
text (for `utf8_text`, modelled as total), and its children in order. -/

inductive Node : Type where
  | mk (kind : String) (row startByte endByte : Nat) (field : Option String)
      (text : String) (children : List Node) : Node
deriving Repr

def Node.kind : Node → String
  | .mk k _ _ _ _ _ _ => k

def Node.row : Node → Nat
  | .mk _ r _ _ _ _ _ => r

def Node.startByte : Node → Nat
  | .mk _ _ sb _ _ _ _ => sb

def Node.endByte : Node → Nat
  | .mk _ _ _ eb _ _ _ => eb

def Node.field : Node → Option String
  | .mk _ _ _ _ f _ _ => f

def Node.text : Node → String
  | .mk _ _ _ _ _ t _ => t

def Node.children : Node → List Node
  | .mk _ _ _ _ _ _ cs => cs

/-- `Node::child_by_field_name`. -/
def Node.childByField (n : Node) (f : String) : Option Node :=
  n.children.find? (fun c => c.field == some f)

/-! ### Rust language adapter (`src/parser/rust_indexer.rs`) -/

/-- `RustIndexer::allowed_definition_kinds`. -/
def allowedDefinitionKinds : List String :=
  ["function_item", "method_declaration", "trait_item", "impl_item",
   "struct_item", "enum_item", "field_declaration", "static_item", "const_item"]

/-- `RustIndexer::build_qualified_name`: the text of the name child, or
the empty string when there is none. -/
def buildQualifiedName (n : Node) : String :=
  match n.childByField "name" with
  | some nameNode => nameNode.text
  | none => ""

/-- `RustIndexer::process_import_declaration`: on a use_declaration, map
the alias (if present) or the last `::`-separated segment of the path to
the full path text. -/
def processImportDeclaration (n : Node) (imports : List (String × String)) :
    List (String × String) :=
  if n.kind ≠ "use_declaration" then imports
  else
    match n.childByField "path" with
    | none => imports
    | some pathNode =>
        let pathText := pathNode.text
        match n.childByField "alias" with
        | some aliasNode => mapInsert aliasNode.text pathText imports
        | none =>
            match (pathText.splitOn "::").getLast? with
            | some lastSegment => mapInsert lastSegment pathText imports
            | none => imports

/-- `RustIndexer::extract_callable_name`: identifier text (substituted via
the imports map), last segment of a scoped_identifier, empty string for
every other node kind. -/
def extractCallableName (n : Node) (imports : List (String × String)) : String :=
  match n.kind with
  | "identifier" =>
      match mapLookup imports n.text with
      | some fullPath => fullPath
      | none => n.text
  | "scoped_identifier" =>
      match (n.text.splitOn "::").getLast? with
      | some lastSegment => lastSegment
      | none => ""
  | _ => ""

/-- `RustIndexer::enter_module`: push the module name of a named mod_item.
The top of the Rust `Vec` stack is modelled as the head of the list. -/
def enterModule (n : Node) (currentModule : List String) : List String :=
  if n.kind = "mod_item" then
    match n.childByField "name" with
    | some nameNode => nameNode.text :: currentModule
    | none => currentModule
  else currentModule

/-- `RustIndexer::exit_module`: pop when the stack is non-empty. -/
def exitModule (currentModule : List String) : List String :=
  match currentModule with
  | [] => []
  | _ :: rest => rest

/-! ### Symbol extractor (`src/parser/mod.rs`) -/

/-- The symbol built at a definition node by
`collect_definitions_and_imports`: location fields come from the
definition node itself. -/
def defSymbol (n : Node) (filePath : String) : Symbol :=
  { name := buildQualifiedName n
    node_kind := n.kind
    file_path := filePath
    line_number := n.row + 1
    start_byte := n.startByte
    end_byte := n.endByte
    dependencies := []
    used_by := [] }

/-- State of the collection pass: collected symbols, imports map, module
stack. -/
def CollectAcc : Type := List Symbol × List (String × String) × List String

-- Pass 1, `collect_definitions_and_imports`.
mutual

/-- One node of pass 1: enter the module scope, process imports, push a
symbol at definition nodes, recurse into the children, exit the module
scope. -/
def collectNode (n : Node) (filePath : String) (acc : CollectAcc) : CollectAcc :=
  match n with
  | .mk _ _ _ _ _ _ cs =>
      let st1 := enterModule n acc.2.2
      let imports1 := processImportDeclaration n acc.2.1
      let syms1 :=
        if allowedDefinitionKinds.contains n.kind then acc.1 ++ [defSymbol n filePath]
        else acc.1
      let r := collectList cs filePath (syms1, imports1, st1)
      (r.1, r.2.1, exitModule r.2.2)

/-- Children of one node in pass 1, in order. -/
def collectList (ns : List Node) (filePath : String) (acc : CollectAcc) : CollectAcc :=
  match ns with
  | [] => acc
  | c :: cs => collectList cs filePath (collectNode c filePath acc)

end

/-- Append a raw dependency name to the symbol at the given index
(`symbols[parent_idx].dependencies.push(call_name)`). -/
def pushDep (syms : List Symbol) (idx : Nat) (rawName : String) : List Symbol :=
  match syms.get? idx with
  | some s => syms.set idx { s with dependencies := s.dependencies ++ [rawName] }
  | none => syms

/-- The enclosing-symbol lookup of `gather_references`: the first pass-1
symbol whose file path, line number (of the name child) and node kind
match the current node. -/
def findEnclosing (syms : List Symbol) (filePath : String) (nameNode : Node)
    (nodeKind : String) : Option (Nat × Symbol) :=
  syms.enum.find? (fun p =>
    p.2.file_path == filePath && p.2.line_number == nameNode.row + 1 &&
      p.2.node_kind == nodeKind)

/-- The reference-recording step of `gather_references` at a node that did
not open a new symbol scope: a call_expression records the extracted
callable name of its function child, a method_call_expression records the
method child's text, both appended to the dependencies of the symbol on
top of the stack (unconditionally, whatever the extracted name is). -/
def gatherCallUpdate (n : Node) (imports : List (String × String))
    (syms : List Symbol) (stack : List Nat) : List Symbol :=
  if n.kind == "call_expression" then
    match n.childByField "function" with
    | some funcNode =>
        match stack with
        | top :: _ => pushDep syms top (extractCallableName funcNode imports)
        | [] => syms
    | none => syms
  else if n.kind == "method_call_expression" then
    match n.childByField "method" with
    | some methodNode =>
        match stack with
        | top :: _ => pushDep syms top methodNode.text
        | [] => syms
    | none => syms
  else syms

-- Pass 2, `gather_references`.
mutual

/-- One node of pass 2: a node with a name child matching a pass-1 symbol
pushes that symbol on the stack for its subtree (and records nothing
itself); every other node records call references and recurses. -/
def gatherNode (n : Node) (filePath : String) (imports : List (String × String))
    (syms : List Symbol) (stack : List Nat) : List Symbol :=
  match n with
  | .mk _ _ _ _ _ _ cs =>
      let enclosing :=
        match n.childByField "name" with
        | some nameNode => findEnclosing syms filePath nameNode n.kind
        | none => none
      match enclosing with
      | some p => gatherList cs filePath imports syms (p.1 :: stack)
      | none =>
          gatherList cs filePath imports (gatherCallUpdate n imports syms stack) stack

/-- Children of one node in pass 2, in order. -/
def gatherList (ns : List Node) (filePath : String) (imports : List (String × String))
    (syms : List Symbol) (stack : List Nat) : List Symbol :=
  match ns with
  | [] => syms
  | c :: cs => gatherList cs filePath imports (gatherNode c filePath imports syms stack) stack

end

/-- `CodeParser::parse_file` on an already-built syntax tree: collect
definitions and imports from an empty state, then gather references. -/
def parseFileTree (root : Node) (filePath : String) :
    List Symbol × List (String × String) :=
  let c := collectNode root filePath ([], [], [])
  (gatherNode root filePath c.2.1 c.1 [], c.2.1)

/-- The subtree relation on syntax nodes: `Subnode d n` holds when `d` is
a node of the tree rooted at `n`. -/
inductive Subnode : Node → Node → Prop where
  | refl (n : Node) : Subnode n n
  | child (d c n : Node) : c ∈ n.children → Subnode d c → Subnode d n

/-- Every store entry carries the symbol stored under its own identity. -/
def StoreWF (st : Store) : Prop := ∀ e ∈ st, Symbol.hash e.2 = e.1

instance (st : Store) : Decidable (StoreWF st) := by
  unfold StoreWF
  infer_instance

/-! ### Concrete scenarios used by the per-claim theorems -/

/-- The empty index, `Indexer::new()`. -/
def emptyIndexer : Indexer := ⟨[], [], []⟩

-- Scenario E (eviction): a.rs defines x; b.rs defines y which calls x;
-- a.rs is then rewritten to define z instead of x.
def eXsym : Symbol := ⟨"x", "function_item", "a.rs", 1, 0, 10, [], []⟩
def eYsymRaw : Symbol := ⟨"y", "function_item", "b.rs", 1, 0, 15, ["x"], []⟩
def eZsym : Symbol := ⟨"z", "function_item", "a.rs", 1, 0, 10, [], []⟩

def eStateA : Indexer :=
  (indexFile emptyIndexer "a.rs" (some "fn x() . v1") (fun _ => some [eXsym])).getD emptyIndexer

def eStateB : Indexer :=
  (indexFile eStateA "b.rs" (some "fn y() . x()") (fun _ => some [eYsymRaw])).getD emptyIndexer

def eStateC : Indexer :=
  (indexFile eStateB "a.rs" (some "fn z() . v2") (fun _ => some [eZsym])).getD emptyIndexer

-- Scenario R (recheck): f1.rs defines d and c, where c calls d and the
-- not-yet-defined g; f2.rs, indexed later, defines g; then recheck.
def rDsym : Symbol := ⟨"d", "function_item", "f1.rs", 1, 0, 8, [], []⟩
def rCsym : Symbol := ⟨"c", "function_item", "f1.rs", 2, 9, 30, ["d", "g"], []⟩
def rGsym : Symbol := ⟨"g", "function_item", "f2.rs", 1, 0, 8, [], []⟩

def rState1 : Indexer :=
  (indexFile emptyIndexer "f1.rs" (some "f1 v1") (fun _ => some [rDsym, rCsym])).getD emptyIndexer

def rState2 : Indexer :=
  (indexFile rState1 "f2.rs" (some "f2 v1") (fun _ => some [rGsym])).getD emptyIndexer

def rState3 : Indexer := recheckUnresolved rState2

-- Scenario V (vanished file): the index knows one symbol of a.rs and the
-- file then becomes unreadable.
def vXsym : Symbol := ⟨"x", "function_item", "a.rs", 1, 0, 10, [], []⟩

def vState : Indexer := ⟨[("a.rs", "fn x() . v1")], [(vXsym.hash, vXsym)], []⟩

-- Scenario I (idempotence witness): one file indexed once from an empty
-- index.
def iSym : Symbol := ⟨"a", "function_item", "a.rs", 1, 0, 9, [], []⟩

def iParse : String → Option (List Symbol) := fun _ => some [iSym]

def iState1 : Indexer :=
  (indexFile emptyIndexer "a.rs" (some "fn a() . ") iParse).getD emptyIndexer

-- Scenario P (parser): the tree of a single function definition
-- fn alpha() with a call whose function child is a field_expression,
-- and a bare keyword node walked inside a module scope.
def pNameNode : Node := .mk "identifier" 0 3 8 (some "name") "alpha" []
def pFuncChild : Node := .mk "field_expression" 0 15 26 (some "function") "self.helper" []
def pCallNode : Node := .mk "call_expression" 0 15 28 none "self.helper()" [pFuncChild]
def pBodyNode : Node := .mk "block" 0 11 30 (some "body") "..." [pCallNode]
def pFnNode : Node := .mk "function_item" 0 0 30 none "fn alpha() ..." [pNameNode, pBodyNode]

/-- The symbol that pass 1 extracts from `pFnNode`. -/
def pAlphaSym : Symbol := ⟨"alpha", "function_item", "a.rs", 1, 0, 30, [], []⟩

/-- A keyword child node of a mod_item, as tree-sitter yields it (the
walk of `collect_definitions_and_imports` visits it like any node). -/
def pKwNode : Node := .mk "mod" 0 0 3 none "mod" []

-- Scenario F (forward reference witness): caller in a.rs with the
-- unresolved name callee, then b.rs defining callee is indexed.
def fCallerSym : Symbol := ⟨"caller", "function_item", "a.rs", 1, 0, 20, [], []⟩
def fNsym : Symbol := ⟨"callee", "function_item", "b.rs", 1, 0, 12, [], []⟩

def fState1 : Indexer :=
  ⟨[("a.rs", "fn caller() . callee()")],
    [(fCallerSym.hash, fCallerSym)],
    [(fCallerSym.hash, ["callee"])]⟩

def fParseB : String → Option (List Symbol) := fun _ => some [fNsym]

def fState2 : Indexer :=
  (indexFile fState1 "b.rs" (some "fn callee() . ") fParseB).getD emptyIndexer

def fState3 : Indexer := recheckUnresolved fState2

/-! ## Theorems

Helper lemmas about the map, set and store operations, followed by one
theorem per claim (with its witness or counterexample where applicable). -/

theorem Symbol.hash_set_dependencies (s : Symbol) (d : List String) :
    Symbol.hash { s with dependencies := d } = s.hash := rfl

theorem Symbol.hash_set_used_by (s : Symbol) (u : List String) :
    Symbol.hash { s with used_by := u } = s.hash := rfl

theorem mapLookup_mapInsert_self {α : Type} (m : List (String × α)) (k : String) (v : α) :
    mapLookup (mapInsert k v m) k = some v := by
  induction m with
  | nil => simp [mapInsert, mapLookup]
  | cons e rest ih =>
      obtain ⟨k', v'⟩ := e
      by_cases h : k' = k
      · simp [mapInsert, mapLookup, h]
      · simp [mapInsert, mapLookup, h, ih]

theorem mapLookup_mapInsert_other {α : Type} (m : List (String × α)) (k k' : String) (v : α)
    (h : k ≠ k') : mapLookup (mapInsert k v m) k' = mapLookup m k' := by
  induction m with
  | nil => simp [mapInsert, mapLookup, h]
  | cons e rest ih =>
      obtain ⟨k'', v''⟩ := e
      by_cases h2 : k'' = k
      · subst h2
        simp [mapInsert, mapLookup, h]
      · simp only [mapInsert, if_neg h2]
        by_cases h3 : k'' = k'
        · simp [mapLookup, h3]
        · simp [mapLookup, h3, ih]

theorem mapLookup_mapPush_other (m : List (String × List String)) (k k' v : String)
    (h : k ≠ k') : mapLookup (mapPush k v m) k' = mapLookup m k' := by
  induction m with
  | nil => simp [mapPush, mapLookup, h]
  | cons e rest ih =>
      obtain ⟨k'', l⟩ := e
      by_cases h2 : k'' = k
      · subst h2
        simp [mapPush, mapLookup, h]
      · simp only [mapPush, if_neg h2]
        by_cases h3 : k'' = k'
        · simp [mapLookup, h3]
        · simp [mapLookup, h3, ih]

theorem mem_mapInsert_keys {α : Type} (m : List (String × α)) (k a : String) (v : α)
    (h : a ∈ (mapInsert k v m).map Prod.fst) : a ∈ m.map Prod.fst ∨ a = k := by
  induction m with
  | nil =>
      simp [mapInsert] at h
      exact Or.inr h
  | cons e rest ih =>
      obtain ⟨c, d⟩ := e
      by_cases h3 : c = k
      · simp only [mapInsert, if_pos h3, List.map_cons, List.mem_cons] at h
        rcases h with h | h
        · exact Or.inr h
        · refine Or.inl ?_
          rw [List.map_cons]
          exact List.mem_cons.mpr (Or.inr h)
      · simp only [mapInsert, if_neg h3, List.map_cons, List.mem_cons] at h
        rcases h with h | h
        · refine Or.inl ?_
          rw [List.map_cons, h]
          exact List.mem_cons_self c _
        · rcases ih h with h4 | h4
          · refine Or.inl ?_
            rw [List.map_cons]
            exact List.mem_cons.mpr (Or.inr h4)
          · exact Or.inr h4

theorem mapInsert_keys_nodup {α : Type} (m : List (String × α)) (k : String) (v : α)
    (h : (m.map Prod.fst).Nodup) : ((mapInsert k v m).map Prod.fst).Nodup := by
  induction m with
  | nil => simp [mapInsert]
  | cons e rest ih =>
      obtain ⟨k', v'⟩ := e
      simp only [List.map_cons, List.nodup_cons] at h
      by_cases h2 : k' = k
      · subst h2
        simpa [mapInsert, List.nodup_cons] using h
      · have hmem : k' ∉ ((mapInsert k v rest).map Prod.fst) := by
          intro hmem
          rcases mem_mapInsert_keys rest k k' v hmem with h4 | h4
          · exact h.1 h4
          · exact h2 h4
        simp only [mapInsert, if_neg h2, List.map_cons, List.nodup_cons]
        exact ⟨hmem, ih h.2⟩

theorem mem_hsInsert_self (l : List String) (x : String) : x ∈ hsInsert l x := by
  unfold hsInsert
  by_cases h : x ∈ l
  · simp [h]
  · simp [h]

theorem mem_hsInsert_of_mem (l : List String) (x y : String) (h : y ∈ l) :
    y ∈ hsInsert l x := by
  unfold hsInsert
  by_cases h2 : x ∈ l
  · simpa [h2]
  · simp [h2, h]

/-- C1: the claim states that after re-indexing a changed file no identity
of a symbol of the previous version of that file survives in any remaining
dependency or used_by set. The code disagrees: `SymbolStore::remove_symbol`
sweeps the evicted identity out of used_by sets only, so after a.rs
(defining x, called by y of b.rs) is rewritten to define z, the stale
identity of x is still in the dependencies of y while x itself is gone
from the store. -/
theorem C1_stale_dependency_after_reindex :
    mapLookup eStateC.symbol_store eXsym.hash = none ∧
    eXsym.hash ∈ ((mapLookup eStateC.symbol_store eYsymRaw.hash).getD default).dependencies ∧
    eStateC =
      (indexFile eStateB "a.rs" (some "fn z() . v2") (fun _ => some [eZsym])).getD emptyIndexer := by
  refine ⟨by decide, by decide, rfl⟩

/-- C2: the claim states dependency/used_by symmetry after every public
operation. The code breaks it in `recheck_unresolved`: removing the caller
to mutate it offline sweeps the caller identity out of the used_by set of
every other symbol, and only the newly resolved links are re-applied after
reinsertion. In the scenario, c (of f1.rs) depends on d with d.used_by
containing c and has the unresolved name g; after f2.rs defines g and
`recheck_unresolved` runs, d is still a dependency of c but c is no longer
in the used_by of d. -/
theorem C2_symmetry_broken_by_recheck :
    rState3 = recheckUnresolved rState2 ∧
    (mapLookup rState3.symbol_store rDsym.hash).isSome = true ∧
    (mapLookup rState3.symbol_store rCsym.hash).isSome = true ∧
    rDsym.hash ∈ ((mapLookup rState3.symbol_store rCsym.hash).getD default).dependencies ∧
    rCsym.hash ∉ ((mapLookup rState3.symbol_store rDsym.hash).getD default).used_by := by
  refine ⟨rfl, by decide, by decide, by decide, by decide⟩

/-- C7 counterexample: the claim states that `index_file` on a vanished
path destroys every symbol of that file. In the code an unreadable file is
skipped before any eviction, so the symbol of a.rs is still in the store
after the call. -/
theorem C7_counterexample :
    indexFile vState "a.rs" none (fun _ => none) = some vState ∧
    ((mapLookup vState.symbol_store vXsym.hash).map Symbol.file_path) = some "a.rs" := by
  refine ⟨by decide, by decide⟩

/-- C7 amended: `index_file` on a path whose content cannot be read or
hashed returns Ok and leaves the whole index unchanged, so the symbols of
the vanished file remain in the index. -/
theorem C7_amended_vanished_file_noop (idx : Indexer) (path : String)
    (parse : String → Option (List Symbol)) :
    indexFile idx path none parse = some idx := rfl

/-- C9 counterexample: the claim states that the module stack after a
node's subtree is processed equals the stack before the node is entered.
The code calls `exit_module` (which pops whenever the stack is non-empty)
at the exit of every node, so walking a plain keyword node inside module m
pops m even though the node pushed nothing. -/
theorem C9_counterexample :
    enterModule pKwNode ["m"] = ["m"] ∧
    (collectNode pKwNode "m.rs" ([], [], ["m"])).2.2 ≠ ["m"] := by
  refine ⟨by decide, by decide⟩

/-! Helper lemmas for the extractor walks. -/

theorem exitModule_suffix_of (l st : List String) (h : l <:+ st) :
    exitModule l <:+ st := by
  cases l with
  | nil => exact List.nil_suffix
  | cons a rest => exact (List.suffix_cons a rest).trans h

theorem enterModule_eq_or_cons (n : Node) (st : List String) :
    enterModule n st = st ∨ ∃ x, enterModule n st = x :: st := by
  unfold enterModule
  by_cases h : n.kind = "mod_item"
  · rw [if_pos h]
    cases hcf : n.childByField "name" with
    | none => exact Or.inl rfl
    | some nn => exact Or.inr ⟨nn.text, rfl⟩
  · rw [if_neg h]
    exact Or.inl rfl

mutual

theorem collectNode_stack_suffix (n : Node) (fp : String) (acc : CollectAcc) :
    (collectNode n fp acc).2.2 <:+ acc.2.2 := by
  cases n with
  | mk k r sb eb f t cs =>
      have hl := collectList_stack_suffix cs fp
        ((if allowedDefinitionKinds.contains (Node.mk k r sb eb f t cs).kind then
            acc.1 ++ [defSymbol (Node.mk k r sb eb f t cs) fp] else acc.1),
          processImportDeclaration (Node.mk k r sb eb f t cs) acc.2.1,
          enterModule (Node.mk k r sb eb f t cs) acc.2.2)
      simp only [collectNode]
      rcases enterModule_eq_or_cons (Node.mk k r sb eb f t cs) acc.2.2 with he | ⟨x, he⟩
      · rw [he] at hl ⊢
        exact exitModule_suffix_of _ _ hl
      · rw [he] at hl ⊢
        rcases List.suffix_cons_iff.mp hl with h2 | h2
        · rw [h2]
          exact List.suffix_refl acc.2.2
        · exact exitModule_suffix_of _ _ h2

theorem collectList_stack_suffix (ns : List Node) (fp : String) (acc : CollectAcc) :
    (collectList ns fp acc).2.2 <:+ acc.2.2 := by
  match ns with
  | [] =>
      simp only [collectList]
      exact List.suffix_refl acc.2.2
  | c :: cs =>
      simp only [collectList]
      exact (collectList_stack_suffix cs fp (collectNode c fp acc)).trans
        (collectNode_stack_suffix c fp acc)

end

mutual

theorem collectNode_syms_from (n : Node) (fp : String) (acc : CollectAcc) :
    ∀ s ∈ (collectNode n fp acc).1,
      s ∈ acc.1 ∨ ∃ d, Subnode d n ∧ allowedDefinitionKinds.contains d.kind = true ∧
        s = defSymbol d fp := by
  cases n with
  | mk k r sb eb f t cs =>
      intro s hs
      simp only [collectNode] at hs
      rcases collectList_syms_from cs fp _ s hs with h | ⟨c, hc, d, hsub, hk, hEq⟩
      · by_cases hdef :
          allowedDefinitionKinds.contains (Node.mk k r sb eb f t cs).kind = true
        · rw [if_pos hdef] at h
          rcases List.mem_append.mp h with h2 | h2
          · exact Or.inl h2
          · refine Or.inr ⟨Node.mk k r sb eb f t cs, Subnode.refl _, hdef, ?_⟩
            simpa using h2
        · rw [if_neg hdef] at h
          exact Or.inl h
      · refine Or.inr ⟨d, ?_, hk, hEq⟩
        refine Subnode.child d c _ ?_ hsub
        simpa [Node.children] using hc

theorem collectList_syms_from (ns : List Node) (fp : String) (acc : CollectAcc) :
    ∀ s ∈ (collectList ns fp acc).1,
      s ∈ acc.1 ∨ ∃ c ∈ ns, ∃ d, Subnode d c ∧
        allowedDefinitionKinds.contains d.kind = true ∧ s = defSymbol d fp := by
  match ns with
  | [] =>
      intro s hs
      simp only [collectList] at hs
      exact Or.inl hs
  | c :: cs =>
      intro s hs
      simp only [collectList] at hs
      rcases collectList_syms_from cs fp (collectNode c fp acc) s hs with h | ⟨c', hc', hrest⟩
      · rcases collectNode_syms_from c fp acc s h with h2 | ⟨d, hsub, hk, hEq⟩
        · exact Or.inl h2
        · exact Or.inr ⟨c, List.mem_cons_self c cs, d, hsub, hk, hEq⟩
      · exact Or.inr ⟨c', List.mem_cons_of_mem c hc', hrest⟩

end

/-- C3 counterexample: the claim states that the location fields of an
extracted symbol are those of the name token. For the function_item tree
of fn alpha, whose name token spans bytes 3 to 8, the extractor stores
start_byte 0 and end_byte 30 — the span of the whole definition node. -/
theorem C3_counterexample :
    (collectNode pFnNode "a.rs" ([], [], [])).1 = [pAlphaSym] ∧
    ((pFnNode.childByField "name").map Node.startByte) = some 3 ∧
    ((pFnNode.childByField "name").map Node.endByte) = some 8 ∧
    pAlphaSym.start_byte = 0 ∧ pAlphaSym.end_byte = 30 ∧
    pAlphaSym.start_byte ≠ 3 := by
  refine ⟨by decide, by decide, by decide, by decide, by decide, by decide⟩

/-- C3 amended: for every symbol produced by the extractor there is a
definition node of the walked tree such that line_number is the 1-based
start row of that definition node and start_byte and end_byte are the byte
offsets of the whole definition node (only the symbol name is read from
the name token). -/
theorem C3_location_fields_from_definition_node (n : Node) (fp : String) (s : Symbol)
    (hs : s ∈ (collectNode n fp ([], [], [])).1) :
    ∃ d, Subnode d n ∧ allowedDefinitionKinds.contains d.kind = true ∧
      s.name = buildQualifiedName d ∧ s.node_kind = d.kind ∧ s.file_path = fp ∧
      s.line_number = d.row + 1 ∧ s.start_byte = d.startByte ∧ s.end_byte = d.endByte := by
  rcases collectNode_syms_from n fp ([], [], []) s hs with h | ⟨d, hsub, hk, hEq⟩
  · simp at h
  · subst hEq
    exact ⟨d, hsub, hk, rfl, rfl, rfl, rfl, rfl, rfl⟩

/-- C3 witness: the amended statement evaluated on the fn alpha tree. -/
theorem C3_location_fields_witness :
    pAlphaSym ∈ (collectNode pFnNode "a.rs" ([], [], [])).1 ∧
    ∃ d, Subnode d pFnNode ∧ allowedDefinitionKinds.contains d.kind = true ∧
      pAlphaSym.name = buildQualifiedName d ∧ pAlphaSym.node_kind = d.kind ∧
      pAlphaSym.file_path = "a.rs" ∧ pAlphaSym.line_number = d.row + 1 ∧
      pAlphaSym.start_byte = d.startByte ∧ pAlphaSym.end_byte = d.endByte :=
  ⟨by decide, C3_location_fields_from_definition_node pFnNode "a.rs" pAlphaSym (by decide)⟩

/-- C4 counterexample: the claim states that an empty result of
resolve_callable is never recorded as a raw dependency. The function child
of the call in the fn alpha tree is a field_expression, for which
`extract_callable_name` returns the empty string, and the parse records
exactly that empty string in the dependencies of alpha. -/
theorem C4_counterexample :
    extractCallableName pFuncChild [] = "" ∧
    ((parseFileTree pFnNode "a.rs").1.map Symbol.dependencies) = [[""]] := by
  refine ⟨by decide, by decide⟩

/-- C4 amended: at a call_expression node visited with a non-empty
enclosing-symbol stack (and no new symbol scope of its own), the name
returned by `extract_callable_name` for the function child is appended to
the raw dependencies of the symbol on top of the stack unconditionally —
whether or not it is empty. -/
theorem C4_call_name_recorded_unconditionally (n : Node) (fp : String)
    (imports : List (String × String)) (syms : List Symbol) (top : Nat)
    (rest : List Nat) (f : Node)
    (hname : n.childByField "name" = none)
    (hkind : n.kind = "call_expression")
    (hfunc : n.childByField "function" = some f) :
    gatherNode n fp imports syms (top :: rest) =
      gatherList n.children fp imports
        (pushDep syms top (extractCallableName f imports)) (top :: rest) := by
  cases n with
  | mk k r sb eb ff t cs =>
      simp only [Node.children]
      simp only [gatherNode, hname, gatherCallUpdate, hkind, hfunc]
      simp

/-- C4 witness: the amended statement evaluated on the concrete call node
with the field_expression function child, for which the extracted name is
empty and still recorded. -/
theorem C4_call_name_recorded_witness :
    pCallNode.childByField "name" = none ∧
    pCallNode.kind = "call_expression" ∧
    pCallNode.childByField "function" = some pFuncChild ∧
    gatherNode pCallNode "a.rs" [] [pAlphaSym] (0 :: []) =
      gatherList pCallNode.children "a.rs" []
        (pushDep [pAlphaSym] 0 (extractCallableName pFuncChild [])) (0 :: []) :=
  ⟨rfl, rfl, rfl,
    C4_call_name_recorded_unconditionally pCallNode "a.rs" [] [pAlphaSym] 0 [] pFuncChild
      rfl rfl rfl⟩

/-- C9 amended: the module stack is pushed on entry to a named mod_item
and popped once (whenever non-empty) at the exit of every node — module or
not — so the stack after a subtree is a suffix of the stack before it (an
entry can be lost inside a module, never gained), and a walk started from
the empty stack ends with the empty stack. -/
theorem C9_module_stack_suffix (n : Node) (fp : String) (acc : CollectAcc) :
    (collectNode n fp acc).2.2 <:+ acc.2.2 ∧
    (collectNode n fp (acc.1, acc.2.1, [])).2.2 = [] := by
  refine ⟨collectNode_stack_suffix n fp acc, ?_⟩
  have h := collectNode_stack_suffix n fp (acc.1, acc.2.1, [])
  exact List.suffix_nil.mp h

/-! Helper lemmas for the per-raw-name resolution step. -/

/-- Elements already accumulated survive the candidate fold of
`resolveDepStep`. -/
theorem resolveDepFold_mem_mono (thisHash : String) (cands : List String)
    (acc : List String × Store × List (String × List String)) (x : String)
    (hx : x ∈ acc.1) :
    x ∈ (cands.foldl
      (fun a c =>
        if c ≠ thisHash then (hsInsert a.1 c, addUsedBy a.2.1 c thisHash, a.2.2) else a)
      acc).1 := by
  induction cands generalizing acc with
  | nil => exact hx
  | cons c cs ih =>
      simp only [List.foldl_cons]
      by_cases h : c ≠ thisHash
      · exact ih _ (by simp only [if_pos h]; exact mem_hsInsert_of_mem _ _ _ hx)
      · simp only [if_neg h]
        exact ih _ hx

/-- Every candidate other than the symbol itself ends up in the
accumulated dependency set of the candidate fold. -/
theorem resolveDepFold_mem (thisHash : String) (cands : List String)
    (acc : List String × Store × List (String × List String)) (c : String)
    (hc : c ∈ cands) (hne : c ≠ thisHash) :
    c ∈ (cands.foldl
      (fun a c =>
        if c ≠ thisHash then (hsInsert a.1 c, addUsedBy a.2.1 c thisHash, a.2.2) else a)
      acc).1 := by
  induction cands generalizing acc with
  | nil => cases hc
  | cons d ds ih =>
      simp only [List.foldl_cons]
      rcases List.mem_cons.mp hc with h | h
      · subst h
        simp only [if_pos hne]
        exact resolveDepFold_mem_mono _ _ _ _ (mem_hsInsert_self _ _)
      · by_cases h2 : d ≠ thisHash
        · simp only [if_pos h2]
          exact ih _ h
        · simp only [if_neg h2]
          exact ih _ h

/-- A fold whose step fixes the single occurring value leaves the
accumulator unchanged. -/
theorem foldl_fixed_of_all_eq {β : Type} (l : List String) (t : String)
    (f : β → String → β) (acc : β) (hf : ∀ a, f a t = a) (h : ∀ c ∈ l, c = t) :
    l.foldl f acc = acc := by
  induction l generalizing acc with
  | nil => rfl
  | cons c cs ih =>
      have hc : c = t := h c (List.mem_cons_self c cs)
      subst hc
      simp only [List.foldl_cons, hf]
      exact ih acc (fun d hd => h d (List.mem_cons_of_mem c hd))

/-- C6: the tie-break of `resolve_one_dependency` and the recording policy
of `resolve_new_symbols_dependencies`: when the file-local name map has
any entry for the raw name, the candidate set is exactly the local entries
for every possible global map (the global map is not consulted); otherwise
the candidates are the global entries (or empty); an empty candidate set
records (caller identity, raw name) in the unresolved table and changes
nothing else; and every candidate other than the caller itself is added to
the dependency set. -/
theorem C6_local_over_global (rawName thisHash : String)
    (localMap globalMap : List (String × List String))
    (deps : List String) (st : Store) (unres : List (String × List String)) :
    (∀ l gm2, mapLookup localMap rawName = some l →
      resolveOneDependency rawName localMap gm2 = l) ∧
    (mapLookup localMap rawName = none →
      resolveOneDependency rawName localMap globalMap =
        (mapLookup globalMap rawName).getD []) ∧
    (resolveOneDependency rawName localMap globalMap = [] →
      resolveDepStep localMap globalMap thisHash (deps, st, unres) rawName =
        (deps, st, drAdd unres thisHash rawName)) ∧
    (∀ c, c ∈ resolveOneDependency rawName localMap globalMap → c ≠ thisHash →
      c ∈ (resolveDepStep localMap globalMap thisHash (deps, st, unres) rawName).1) := by
  refine ⟨?_, ?_, ?_, ?_⟩
  · intro l gm2 hl
    unfold resolveOneDependency
    rw [hl]
  · intro hl
    unfold resolveOneDependency
    rw [hl]
    cases mapLookup globalMap rawName <;> rfl
  · intro hempty
    unfold resolveDepStep
    rw [hempty]
    rfl
  · intro c hc hne
    unfold resolveDepStep
    have hnonempty : ¬(resolveOneDependency rawName localMap globalMap).isEmpty = true := by
      cases hres : resolveOneDependency rawName localMap globalMap with
      | nil => rw [hres] at hc; cases hc
      | cons a as => simp [List.isEmpty]
    rw [if_neg hnonempty]
    exact resolveDepFold_mem thisHash _ _ c hc hne

/-- C6 witness: the tie-break evaluated on concrete maps in which the
local map binds the name helper, the global map binds it differently, a
second name misses both maps, and a self-candidate is skipped. -/
theorem C6_local_over_global_witness :
    resolveOneDependency "helper" [("helper", ["L1", "L2"])] [("helper", ["G1"])] =
      ["L1", "L2"] ∧
    resolveOneDependency "other" [("helper", ["L1", "L2"])] [("other", ["G2"])] = ["G2"] ∧
    resolveDepStep [("helper", ["L1", "L2"])] [("other", ["G2"])] "H"
      ([], [], []) "missing" = ([], [], drAdd [] "H" "missing") ∧
    "L1" ∈ (resolveDepStep [("helper", ["L1", "L2"])] [("other", ["G2"])] "H"
      ([], [], []) "helper").1 :=
  ⟨(C6_local_over_global "helper" "H" [("helper", ["L1", "L2"])] [("helper", ["G1"])]
      [] [] []).1 ["L1", "L2"] [("helper", ["G1"])] (by decide),
   (C6_local_over_global "other" "H" [("helper", ["L1", "L2"])] [("other", ["G2"])]
      [] [] []).2.1 (by decide),
   (C6_local_over_global "missing" "H" [("helper", ["L1", "L2"])] [("other", ["G2"])]
      [] [] []).2.2.1 (by decide),
   (C6_local_over_global "helper" "H" [("helper", ["L1", "L2"])] [("other", ["G2"])]
      [] [] []).2.2.2 "L1" (by decide) (by decide)⟩

/-- C10: a raw name whose non-empty candidate set contains only the
identity of the symbol itself is silently dropped, both by the per-name
step of initial resolution (no dependency, no used_by, no unresolved
entry) and by the per-name step of `recheck_unresolved` (no dependency, no
pending link, not kept as leftover). -/
theorem C10_self_only_reference_dropped (rawName thisHash callerHash : String)
    (localMap globalMap gm : List (String × List String))
    (deps : List String) (st : Store) (unres : List (String × List String))
    (callerSym : Symbol) (leftover : List String) (links : List (String × String)) :
    (resolveOneDependency rawName localMap globalMap ≠ [] →
      (∀ c ∈ resolveOneDependency rawName localMap globalMap, c = thisHash) →
      resolveDepStep localMap globalMap thisHash (deps, st, unres) rawName =
        (deps, st, unres)) ∧
    (∀ depHashes, mapLookup gm rawName = some depHashes →
      (∀ h ∈ depHashes, h = callerHash) →
      recheckNameStep gm callerHash (callerSym, leftover, links) rawName =
        (callerSym, leftover, links)) := by
  constructor
  · intro hne hall
    unfold resolveDepStep
    have hnonempty : ¬(resolveOneDependency rawName localMap globalMap).isEmpty = true := by
      cases hres : resolveOneDependency rawName localMap globalMap with
      | nil => exact absurd hres hne
      | cons a as => simp [List.isEmpty]
    rw [if_neg hnonempty]
    exact foldl_fixed_of_all_eq _ thisHash _ _ (fun a => by simp) hall
  · intro depHashes hlook hall
    unfold recheckNameStep
    rw [hlook]
    exact foldl_fixed_of_all_eq _ callerHash _ _ (fun a => by simp [recheckLinkStep]) hall

/-- C10 witness: a direct recursive call — the only candidate for the raw
name f is the caller itself — is dropped by both resolution steps. -/
theorem C10_self_only_reference_witness :
    resolveDepStep [("f", ["F"])] [] "F" ([], [], []) "f" = ([], [], []) ∧
    recheckNameStep [("f", ["F"])] "F" (default, [], []) "f" = (default, [], []) :=
  ⟨(C10_self_only_reference_dropped "f" "F" "F" [("f", ["F"])] [] [("f", ["F"])]
      [] [] [] default [] []).1 (by decide) (by decide),
   (C10_self_only_reference_dropped "f" "F" "F" [] [] [("f", ["F"])]
      [] [] [] default [] []).2 ["F"] (by decide) (by decide)⟩

/-! Helper lemmas for idempotence. -/

theorem hasChanged_mapInsert_self (fh : List (String × String)) (path h : String) :
    hasChanged (mapInsert path h fh) path h = false := by
  unfold hasChanged
  rw [mapLookup_mapInsert_self]
  simp

/-- A successful `parse_and_index_file` records the new file hash. -/
theorem parseAndIndexFile_records_hash (idx : Indexer) (path nh c : String)
    (parse : String → Option (List Symbol)) (idx2 : Indexer)
    (h : parseAndIndexFile idx path nh c parse = some idx2) :
    mapLookup idx2.file_hashes path = some nh := by
  unfold parseAndIndexFile at h
  cases hp : parse c with
  | none =>
      rw [hp] at h
      cases h
  | some newSymbols =>
      rw [hp] at h
      injection h with h2
      rw [← h2]
      exact mapLookup_mapInsert_self _ path nh

/-- C8: when `index_file` returns Ok, an immediately repeated call on the
same unchanged content returns Ok with the identical index state and takes
the no-parse branch: no eviction, no parse and no insertion happen the
second time (the guard `indexFileParses` of the evict-parse-insert branch
is false). -/
theorem C8_index_file_idempotent (idx idx2 : Indexer) (path : String)
    (content : Option String) (parse : String → Option (List Symbol))
    (h : indexFile idx path content parse = some idx2) :
    indexFile idx2 path content parse = some idx2 ∧
    indexFileParses idx2 path content = false := by
  cases content with
  | none =>
      have h2 : idx = idx2 := Option.some.inj h
      subst h2
      exact ⟨rfl, rfl⟩
  | some c =>
      have h' : (if hasChanged idx.file_hashes path (fileFingerprint c) = true then
          parseAndIndexFile (removeDeletedSymbolsInFile idx path) path
            (fileFingerprint c) c parse
        else some idx) = some idx2 := h
      by_cases hch : hasChanged idx.file_hashes path (fileFingerprint c) = true
      · rw [if_pos hch] at h'
        have hlook := parseAndIndexFile_records_hash _ path (fileFingerprint c) c
          parse idx2 h'
        have hnoch : hasChanged idx2.file_hashes path (fileFingerprint c) = false := by
          unfold hasChanged
          rw [hlook]
          simp
        constructor
        · have hgoal : (if hasChanged idx2.file_hashes path (fileFingerprint c) = true then
              parseAndIndexFile (removeDeletedSymbolsInFile idx2 path) path
                (fileFingerprint c) c parse
            else some idx2) = some idx2 := by
            rw [if_neg (by simp [hnoch])]
          exact hgoal
        · have hgoal : hasChanged idx2.file_hashes path (fileFingerprint c) = false := hnoch
          exact hgoal
      · rw [if_neg hch] at h'
        have h2 : idx = idx2 := Option.some.inj h'
        subst h2
        have hnoch : hasChanged idx.file_hashes path (fileFingerprint c) = false := by
          simpa using hch
        constructor
        · have hgoal : (if hasChanged idx.file_hashes path (fileFingerprint c) = true then
              parseAndIndexFile (removeDeletedSymbolsInFile idx path) path
                (fileFingerprint c) c parse
            else some idx) = some idx := by
            rw [if_neg (by simp [hnoch])]
          exact hgoal
        · exact hnoch

/-- C8 witness: indexing a.rs once from the empty index and calling
`index_file` again on the same content is a no-op that keeps the state. -/
theorem C8_index_file_idempotent_witness :
    indexFile iState1 "a.rs" (some "fn a() . ") iParse = some iState1 ∧
    indexFileParses iState1 "a.rs" (some "fn a() . ") = false :=
  C8_index_file_idempotent emptyIndexer iState1 "a.rs" (some "fn a() . ") iParse rfl

/-! Helper lemmas about store operations, towards forward-reference
repair (C5). -/

theorem mapLookup_mem {α : Type} (m : List (String × α)) (k : String) (v : α)
    (h : mapLookup m k = some v) : (k, v) ∈ m := by
  induction m with
  | nil => cases h
  | cons e rest ih =>
      obtain ⟨k', v'⟩ := e
      by_cases h2 : k' = k
      · subst h2
        rw [mapLookup, if_pos rfl] at h
        injection h with h3
        subst h3
        exact List.mem_cons_self _ _
      · rw [mapLookup, if_neg h2] at h
        exact List.mem_cons_of_mem _ (ih h)

theorem mem_mapInsert {α : Type} (m : List (String × α)) (k : String) (v : α)
    (e : String × α) (h : e ∈ mapInsert k v m) : e = (k, v) ∨ e ∈ m := by
  induction m with
  | nil =>
      simp [mapInsert] at h
      exact Or.inl h
  | cons e2 rest ih =>
      obtain ⟨k', v'⟩ := e2
      by_cases h2 : k' = k
      · simp only [mapInsert, if_pos h2, List.mem_cons] at h
        rcases h with h | h
        · exact Or.inl h
        · exact Or.inr (List.mem_cons_of_mem _ h)
      · simp only [mapInsert, if_neg h2, List.mem_cons] at h
        rcases h with h | h
        · exact Or.inr (by rw [h]; exact List.mem_cons_self _ _)
        · rcases ih h with h3 | h3
          · exact Or.inl h3
          · exact Or.inr (List.mem_cons_of_mem _ h3)

theorem mem_of_lookup_of_keys_nodup {α : Type} (m : List (String × α)) (k : String)
    (v v' : α) (hnodup : (m.map Prod.fst).Nodup) (hl : mapLookup m k = some v)
    (hm : (k, v') ∈ m) : v' = v := by
  induction m with
  | nil => cases hm
  | cons e rest ih =>
      obtain ⟨k', v''⟩ := e
      simp only [List.map_cons, List.nodup_cons] at hnodup
      by_cases h2 : k' = k
      · subst h2
        rw [mapLookup, if_pos rfl] at hl
        injection hl with h3
        subst h3
        rcases List.mem_cons.mp hm with h | h
        · injection h with h4 h5
        · exact absurd (List.mem_map_of_mem Prod.fst h) (by simpa using hnodup.1)
      · rw [mapLookup, if_neg h2] at hl
        rcases List.mem_cons.mp hm with h | h
        · injection h with h4 h5
          exact absurd h4.symm h2
        · exact ih hnodup.2 hl h

theorem mapLookup_filterKeys_ne (st : Store) (h k : String) (hk : k ≠ h) :
    mapLookup ((st : List (String × Symbol)).filter (fun e => e.1 ≠ h)) k =
      mapLookup st k := by
  induction st with
  | nil => rfl
  | cons e rest ih =>
      obtain ⟨k', v⟩ := e
      by_cases h2 : k' = h
      · subst h2
        simp only [List.filter_cons]
        rw [if_neg (by simp)]
        rw [mapLookup, if_neg fun hc => hk hc.symm]
        exact ih
      · simp only [List.filter_cons]
        rw [if_pos (by simpa using h2)]
        by_cases h3 : k' = k
        · rw [mapLookup, if_pos h3, mapLookup, if_pos h3]
        · rw [mapLookup, if_neg h3, mapLookup, if_neg h3]
          exact ih

theorem mapLookup_filterKeys_self (st : Store) (h : String) :
    mapLookup ((st : List (String × Symbol)).filter (fun e => e.1 ≠ h)) h = none := by
  induction st with
  | nil => rfl
  | cons e rest ih =>
      obtain ⟨k', v⟩ := e
      by_cases h2 : k' = h
      · subst h2
        simp only [List.filter_cons]
        rw [if_neg (by simp)]
        exact ih
      · simp only [List.filter_cons]
        rw [if_pos (by simpa using h2)]
        rw [mapLookup, if_neg h2]
        exact ih

theorem mapLookup_sweep (m : List (String × Symbol)) (h k : String) :
    mapLookup
      (m.map (fun e => (e.1, { e.2 with used_by := e.2.used_by.filter (· ≠ h) }))) k =
      (mapLookup m k).map (fun s => { s with used_by := s.used_by.filter (· ≠ h) }) := by
  induction m with
  | nil => rfl
  | cons e rest ih =>
      obtain ⟨k', v⟩ := e
      by_cases h2 : k' = k
      · simp [List.map_cons, mapLookup, h2]
      · simp only [List.map_cons, mapLookup, if_neg h2]
        exact ih

/-- The removed-symbol component of `remove_symbol` is the plain lookup. -/
theorem removeSymbol_fst (st : Store) (h : String) :
    (removeSymbol st h).1 = mapLookup st h := by
  unfold removeSymbol
  cases hl : mapLookup st h <;> simp

theorem removeSymbol_lookup_self (st : Store) (h : String) :
    mapLookup (removeSymbol st h).2 h = none := by
  unfold removeSymbol
  cases hl : mapLookup st h with
  | none => exact hl
  | some s =>
      simp only []
      unfold sweepStore
      rw [mapLookup_sweep, mapLookup_filterKeys_self]
      rfl

theorem removeSymbol_lookup_other (st : Store) (h k : String) (s0 : Symbol)
    (hl : mapLookup st h = some s0) (hk : k ≠ h) :
    mapLookup (removeSymbol st h).2 k =
      (mapLookup st k).map
        (fun s => { s with used_by := s.used_by.filter (· ≠ h) }) := by
  unfold removeSymbol
  rw [hl]
  simp only []
  unfold sweepStore
  rw [mapLookup_sweep, mapLookup_filterKeys_ne st h k hk]

theorem removeSymbol_lookup_not_found (st : Store) (h : String)
    (hl : mapLookup st h = none) : (removeSymbol st h).2 = st := by
  unfold removeSymbol
  rw [hl]

theorem removeSymbol_isSome_other (st : Store) (h k : String) (hk : k ≠ h) :
    (mapLookup (removeSymbol st h).2 k).isSome = (mapLookup st k).isSome := by
  cases hl : mapLookup st h with
  | none => rw [removeSymbol_lookup_not_found st h hl]
  | some s0 =>
      rw [removeSymbol_lookup_other st h k s0 hl hk]
      cases mapLookup st k <;> rfl

/-! Well-formedness preservation. -/

theorem StoreWF_addSymbol (st : Store) (s : Symbol) (hwf : StoreWF st) :
    StoreWF (addSymbol st s) := by
  intro e he
  rcases mem_mapInsert st s.hash s e he with h | h
  · rw [h]
  · exact hwf e h

theorem removeSymbol_found (st : Store) (h : String) (s : Symbol)
    (hl : mapLookup st h = some s) :
    removeSymbol st h = (some s, sweepStore st h) := by
  unfold removeSymbol
  rw [hl]

theorem removeSymbol_not_found (st : Store) (h : String)
    (hl : mapLookup st h = none) : removeSymbol st h = (none, st) := by
  unfold removeSymbol
  rw [hl]

theorem StoreWF_sweepStore (st : Store) (h : String) (hwf : StoreWF st) :
    StoreWF (sweepStore st h) := by
  intro e he
  unfold sweepStore at he
  simp only [List.mem_map] at he
  obtain ⟨e', he', rfl⟩ := he
  have h1 := hwf e' (List.mem_of_mem_filter he')
  calc Symbol.hash { e'.2 with used_by := e'.2.used_by.filter (· ≠ h) }
      = e'.2.hash := Symbol.hash_set_used_by e'.2 _
    _ = e'.1 := h1

theorem StoreWF_removeSymbol (st : Store) (h : String) (hwf : StoreWF st) :
    StoreWF (removeSymbol st h).2 := by
  cases hl : mapLookup st h with
  | none => rw [removeSymbol_not_found st h hl]; exact hwf
  | some s0 =>
      rw [removeSymbol_found st h s0 hl]
      exact StoreWF_sweepStore st h hwf

theorem StoreWF_addUsedBy (st : Store) (callee caller : String) (hwf : StoreWF st) :
    StoreWF (addUsedBy st callee caller) := by
  unfold addUsedBy
  cases hl : mapLookup st callee with
  | none => exact hwf
  | some s =>
      intro e he
      rcases mem_mapInsert st callee { s with used_by := hsInsert s.used_by caller } e he
        with h | h
      · rw [h]
        have h1 := hwf _ (mapLookup_mem st callee s hl)
        calc Symbol.hash { s with used_by := hsInsert s.used_by caller }
            = s.hash := Symbol.hash_set_used_by s _
          _ = callee := h1
      · exact hwf e h

/-! Behaviour of `add_used_by`. -/

theorem addUsedBy_lookup_other (st : Store) (callee caller k : String) (hk : k ≠ callee) :
    mapLookup (addUsedBy st callee caller) k = mapLookup st k := by
  unfold addUsedBy
  cases hl : mapLookup st callee with
  | none => rfl
  | some s => exact mapLookup_mapInsert_other st callee k _ (fun hc => hk hc.symm)

theorem addUsedBy_lookup_self (st : Store) (callee caller : String) (s : Symbol)
    (hl : mapLookup st callee = some s) :
    mapLookup (addUsedBy st callee caller) callee =
      some { s with used_by := hsInsert s.used_by caller } := by
  unfold addUsedBy
  rw [hl]
  exact mapLookup_mapInsert_self st callee _

/-- `add_used_by` keeps every entry, its dependency set, its identity
fields, and the members of its used_by set. -/
theorem addUsedBy_keeps (st : Store) (callee caller k : String) (s : Symbol)
    (hl : mapLookup st k = some s) :
    ∃ s', mapLookup (addUsedBy st callee caller) k = some s' ∧
      s'.dependencies = s.dependencies ∧ s'.name = s.name ∧ s'.hash = s.hash ∧
      ∀ x ∈ s.used_by, x ∈ s'.used_by := by
  by_cases hk : k = callee
  · subst hk
    refine ⟨{ s with used_by := hsInsert s.used_by caller },
      addUsedBy_lookup_self st k caller s hl, rfl, rfl, Symbol.hash_set_used_by s _, ?_⟩
    intro x hx
    exact mem_hsInsert_of_mem _ _ _ hx
  · refine ⟨s, ?_, rfl, rfl, rfl, fun x hx => hx⟩
    rw [addUsedBy_lookup_other st callee caller k hk]
    exact hl

/-! Behaviour of the recheck folds. -/

theorem recheckLinkStep_fields (ch : String)
    (a : Symbol × List String × List (String × String)) (d : String) :
    (recheckLinkStep ch a d).1.used_by = a.1.used_by ∧
    Symbol.hash (recheckLinkStep ch a d).1 = a.1.hash ∧
    (recheckLinkStep ch a d).1.name = a.1.name ∧
    (recheckLinkStep ch a d).2.1 = a.2.1 := by
  unfold recheckLinkStep
  by_cases h : d ≠ ch
  · rw [if_pos h]
    exact ⟨rfl, Symbol.hash_set_dependencies _ _, rfl, rfl⟩
  · rw [if_neg h]
    exact ⟨rfl, rfl, rfl, rfl⟩

theorem recheckLinkStep_dep_mono (ch : String)
    (a : Symbol × List String × List (String × String)) (d x : String)
    (hx : x ∈ a.1.dependencies) : x ∈ (recheckLinkStep ch a d).1.dependencies := by
  unfold recheckLinkStep
  by_cases h : d ≠ ch
  · rw [if_pos h]
    exact mem_hsInsert_of_mem _ _ _ hx
  · rw [if_neg h]
    exact hx

theorem recheckLinkStep_links_mono (ch : String)
    (a : Symbol × List String × List (String × String)) (d : String)
    (l : String × String) (hl : l ∈ a.2.2) : l ∈ (recheckLinkStep ch a d).2.2 := by
  unfold recheckLinkStep
  by_cases h : d ≠ ch
  · rw [if_pos h]
    exact List.mem_append_left _ hl
  · rw [if_neg h]
    exact hl

theorem linkFold_fields (ch : String) (dhs : List String)
    (a : Symbol × List String × List (String × String)) :
    (dhs.foldl (recheckLinkStep ch) a).1.used_by = a.1.used_by ∧
    Symbol.hash (dhs.foldl (recheckLinkStep ch) a).1 = a.1.hash ∧
    (dhs.foldl (recheckLinkStep ch) a).1.name = a.1.name ∧
    (dhs.foldl (recheckLinkStep ch) a).2.1 = a.2.1 := by
  induction dhs generalizing a with
  | nil => exact ⟨rfl, rfl, rfl, rfl⟩
  | cons d ds ih =>
      simp only [List.foldl_cons]
      obtain ⟨h1, h2, h3, h4⟩ := ih (recheckLinkStep ch a d)
      obtain ⟨g1, g2, g3, g4⟩ := recheckLinkStep_fields ch a d
      exact ⟨h1.trans g1, h2.trans g2, h3.trans g3, h4.trans g4⟩

theorem linkFold_dep_mono (ch : String) (dhs : List String)
    (a : Symbol × List String × List (String × String)) (x : String)
    (hx : x ∈ a.1.dependencies) :
    x ∈ (dhs.foldl (recheckLinkStep ch) a).1.dependencies := by
  induction dhs generalizing a with
  | nil => exact hx
  | cons d ds ih =>
      simp only [List.foldl_cons]
      exact ih _ (recheckLinkStep_dep_mono ch a d x hx)

theorem linkFold_links_mono (ch : String) (dhs : List String)
    (a : Symbol × List String × List (String × String)) (l : String × String)
    (hl : l ∈ a.2.2) : l ∈ (dhs.foldl (recheckLinkStep ch) a).2.2 := by
  induction dhs generalizing a with
  | nil => exact hl
  | cons d ds ih =>
      simp only [List.foldl_cons]
      exact ih _ (recheckLinkStep_links_mono ch a d l hl)

theorem linkFold_dep_mem (ch : String) (dhs : List String)
    (a : Symbol × List String × List (String × String)) (d : String)
    (hd : d ∈ dhs) (hne : d ≠ ch) :
    d ∈ (dhs.foldl (recheckLinkStep ch) a).1.dependencies ∧
    (d, ch) ∈ (dhs.foldl (recheckLinkStep ch) a).2.2 := by
  induction dhs generalizing a with
  | nil => cases hd
  | cons d0 ds ih =>
      simp only [List.foldl_cons]
      rcases List.mem_cons.mp hd with h | h
      · subst h
        constructor
        · refine linkFold_dep_mono ch ds _ d ?_
          simp only [recheckLinkStep, if_pos hne]
          exact mem_hsInsert_self _ _
        · refine linkFold_links_mono ch ds _ (d, ch) ?_
          simp only [recheckLinkStep, if_pos hne]
          exact List.mem_append_right _ (List.mem_singleton.mpr rfl)
      · exact ih _ h

theorem recheckNameStep_sym_fields (gm : List (String × List String)) (ch : String)
    (acc : Symbol × List String × List (String × String)) (raw : String) :
    (recheckNameStep gm ch acc raw).1.used_by = acc.1.used_by ∧
    Symbol.hash (recheckNameStep gm ch acc raw).1 = acc.1.hash ∧
    (recheckNameStep gm ch acc raw).1.name = acc.1.name := by
  unfold recheckNameStep
  cases hl : mapLookup gm raw with
  | some dhs =>
      obtain ⟨h1, h2, h3, _⟩ := linkFold_fields ch dhs acc
      exact ⟨h1, h2, h3⟩
  | none => exact ⟨rfl, rfl, rfl⟩

theorem recheckNameStep_dep_mono (gm : List (String × List String)) (ch : String)
    (acc : Symbol × List String × List (String × String)) (raw x : String)
    (hx : x ∈ acc.1.dependencies) : x ∈ (recheckNameStep gm ch acc raw).1.dependencies := by
  unfold recheckNameStep
  cases hl : mapLookup gm raw with
  | some dhs => exact linkFold_dep_mono ch dhs acc x hx
  | none => exact hx

theorem recheckNameStep_links_mono (gm : List (String × List String)) (ch : String)
    (acc : Symbol × List String × List (String × String)) (raw : String)
    (l : String × String) (hl : l ∈ acc.2.2) :
    l ∈ (recheckNameStep gm ch acc raw).2.2 := by
  unfold recheckNameStep
  cases h2 : mapLookup gm raw with
  | some dhs => exact linkFold_links_mono ch dhs acc l hl
  | none => exact hl

theorem recheckNameStep_leftover (gm : List (String × List String)) (ch : String)
    (acc : Symbol × List String × List (String × String)) (raw : String)
    (hacc : ∀ r ∈ acc.2.1, mapLookup gm r = none) :
    ∀ r ∈ (recheckNameStep gm ch acc raw).2.1, mapLookup gm r = none := by
  unfold recheckNameStep
  cases h2 : mapLookup gm raw with
  | some dhs =>
      rw [(linkFold_fields ch dhs acc).2.2.2]
      exact hacc
  | none =>
      intro r hr
      rcases List.mem_append.mp hr with h | h
      · exact hacc r h
      · rw [List.mem_singleton.mp h]
        exact h2

theorem namesFold_sym_fields (gm : List (String × List String)) (ch : String)
    (ns : List String) (acc : Symbol × List String × List (String × String)) :
    (ns.foldl (recheckNameStep gm ch) acc).1.used_by = acc.1.used_by ∧
    Symbol.hash (ns.foldl (recheckNameStep gm ch) acc).1 = acc.1.hash ∧
    (ns.foldl (recheckNameStep gm ch) acc).1.name = acc.1.name := by
  induction ns generalizing acc with
  | nil => exact ⟨rfl, rfl, rfl⟩
  | cons r rs ih =>
      simp only [List.foldl_cons]
      obtain ⟨h1, h2, h3⟩ := ih (recheckNameStep gm ch acc r)
      obtain ⟨g1, g2, g3⟩ := recheckNameStep_sym_fields gm ch acc r
      exact ⟨h1.trans g1, h2.trans g2, h3.trans g3⟩

theorem namesFold_dep_mono (gm : List (String × List String)) (ch : String)
    (ns : List String) (acc : Symbol × List String × List (String × String)) (x : String)
    (hx : x ∈ acc.1.dependencies) :
    x ∈ (ns.foldl (recheckNameStep gm ch) acc).1.dependencies := by
  induction ns generalizing acc with
  | nil => exact hx
  | cons r rs ih =>
      simp only [List.foldl_cons]
      exact ih _ (recheckNameStep_dep_mono gm ch acc r x hx)

theorem namesFold_links_mono (gm : List (String × List String)) (ch : String)
    (ns : List String) (acc : Symbol × List String × List (String × String))
    (l : String × String) (hl : l ∈ acc.2.2) :
    l ∈ (ns.foldl (recheckNameStep gm ch) acc).2.2 := by
  induction ns generalizing acc with
  | nil => exact hl
  | cons r rs ih =>
      simp only [List.foldl_cons]
      exact ih _ (recheckNameStep_links_mono gm ch acc r l hl)

theorem namesFold_leftover (gm : List (String × List String)) (ch : String)
    (ns : List String) (acc : Symbol × List String × List (String × String))
    (hacc : ∀ r ∈ acc.2.1, mapLookup gm r = none) :
    ∀ r ∈ (ns.foldl (recheckNameStep gm ch) acc).2.1, mapLookup gm r = none := by
  induction ns generalizing acc with
  | nil => exact hacc
  | cons r rs ih =>
      simp only [List.foldl_cons]
      exact ih _ (recheckNameStep_leftover gm ch acc r hacc)

theorem namesFold_dep_link (gm : List (String × List String)) (ch : String)
    (ns : List String) (acc : Symbol × List String × List (String × String))
    (N nsymH : String) (lst : List String)
    (hN : N ∈ ns) (hgm : mapLookup gm N = some lst) (hx : nsymH ∈ lst)
    (hne : nsymH ≠ ch) :
    nsymH ∈ (ns.foldl (recheckNameStep gm ch) acc).1.dependencies ∧
    (nsymH, ch) ∈ (ns.foldl (recheckNameStep gm ch) acc).2.2 := by
  induction ns generalizing acc with
  | nil => cases hN
  | cons r rs ih =>
      simp only [List.foldl_cons]
      rcases List.mem_cons.mp hN with h | h
      · subst h
        have hstep : nsymH ∈ (recheckNameStep gm ch acc N).1.dependencies ∧
            (nsymH, ch) ∈ (recheckNameStep gm ch acc N).2.2 := by
          unfold recheckNameStep
          rw [hgm]
          exact linkFold_dep_mem ch lst acc nsymH hx hne
        exact ⟨namesFold_dep_mono gm ch rs _ nsymH hstep.1,
          namesFold_links_mono gm ch rs _ (nsymH, ch) hstep.2⟩
      · exact ih _ h

/-! Behaviour of the pending used_by link application. -/

theorem addUsedBy_isSome (st : Store) (callee caller k : String) :
    (mapLookup (addUsedBy st callee caller) k).isSome = (mapLookup st k).isSome := by
  by_cases hk : k = callee
  · subst hk
    cases hl : mapLookup st k with
    | none =>
        unfold addUsedBy
        rw [hl]
        rw [hl]
    | some s => simp [addUsedBy_lookup_self st k caller s hl, hl]
  · rw [addUsedBy_lookup_other st callee caller k hk]

theorem applyLinkFold_keeps (links : List (String × String)) (st : Store) (k : String)
    (s : Symbol) (hl : mapLookup st k = some s) :
    ∃ s', mapLookup (links.foldl applyLink st) k = some s' ∧
      s'.dependencies = s.dependencies ∧ s'.name = s.name ∧ s'.hash = s.hash ∧
      ∀ x ∈ s.used_by, x ∈ s'.used_by := by
  induction links generalizing st s with
  | nil => exact ⟨s, hl, rfl, rfl, rfl, fun x hx => hx⟩
  | cons l ls ih =>
      simp only [List.foldl_cons]
      obtain ⟨s1, hs1, hdep1, hname1, hhash1, hub1⟩ :=
        addUsedBy_keeps st l.1 l.2 k s hl
      obtain ⟨s2, hs2, hdep2, hname2, hhash2, hub2⟩ := ih _ s1 hs1
      exact ⟨s2, hs2, hdep2.trans hdep1, hname2.trans hname1, hhash2.trans hhash1,
        fun x hx => hub2 x (hub1 x hx)⟩

theorem applyLinkFold_isSome (links : List (String × String)) (st : Store) (k : String) :
    (mapLookup (links.foldl applyLink st) k).isSome = (mapLookup st k).isSome := by
  induction links generalizing st with
  | nil => rfl
  | cons l ls ih =>
      simp only [List.foldl_cons]
      rw [ih (applyLink st l)]
      exact addUsedBy_isSome st l.1 l.2 k

theorem applyLinkFold_wf (links : List (String × String)) (st : Store)
    (hwf : StoreWF st) : StoreWF (links.foldl applyLink st) := by
  induction links generalizing st with
  | nil => exact hwf
  | cons l ls ih =>
      simp only [List.foldl_cons]
      exact ih _ (StoreWF_addUsedBy st l.1 l.2 hwf)

theorem applyLinkFold_establish (links : List (String × String)) (st : Store)
    (nsymH callerH : String) (hmem : (nsymH, callerH) ∈ links)
    (hsome : (mapLookup st nsymH).isSome = true) :
    ∃ s2, mapLookup (links.foldl applyLink st) nsymH = some s2 ∧
      callerH ∈ s2.used_by := by
  induction links generalizing st with
  | nil => cases hmem
  | cons l ls ih =>
      simp only [List.foldl_cons]
      rcases List.mem_cons.mp hmem with h | h
      · subst h
        obtain ⟨s, hs⟩ := Option.isSome_iff_exists.mp hsome
        have hstep := addUsedBy_lookup_self st nsymH callerH s hs
        obtain ⟨s2, hs2, _, _, _, hub⟩ :=
          applyLinkFold_keeps ls (applyLink st (nsymH, callerH)) nsymH _ hstep
        exact ⟨s2, hs2, hub callerH (mem_hsInsert_self _ _)⟩
      · refine ih _ h ?_
        show (mapLookup (addUsedBy st l.1 l.2) nsymH).isSome = true
        rw [addUsedBy_isSome st l.1 l.2 nsymH]
        exact hsome

theorem sweepStore_lookup (st : Store) (h k : String) (hk : k ≠ h) :
    mapLookup (sweepStore st h) k =
      (mapLookup st k).map (fun s => { s with used_by := s.used_by.filter (· ≠ h) }) := by
  unfold sweepStore
  rw [mapLookup_sweep, mapLookup_filterKeys_ne st h k hk]

theorem sweepStore_isSome (st : Store) (h k : String) (hk : k ≠ h) :
    (mapLookup (sweepStore st h) k).isSome = (mapLookup st k).isSome := by
  rw [sweepStore_lookup st h k hk]
  cases mapLookup st k <;> rfl

theorem recheckCaller_not_found (gm : List (String × List String))
    (acc : Store × List (String × List String)) (entry : String × List String)
    (h : mapLookup acc.1 entry.1 = none) : recheckCaller gm acc entry = acc := by
  unfold recheckCaller
  rw [removeSymbol_not_found acc.1 entry.1 h]

theorem recheckCaller_found_pair (gm : List (String × List String))
    (acc : Store × List (String × List String)) (ch : String) (ns : List String)
    (callerSym : Symbol) (h : mapLookup acc.1 ch = some callerSym) :
    recheckCaller gm acc (ch, ns) =
      ((ns.foldl (recheckNameStep gm ch) (callerSym, [], [])).2.2.foldl applyLink
        (addSymbol (sweepStore acc.1 ch)
          (ns.foldl (recheckNameStep gm ch) (callerSym, [], [])).1),
       if (ns.foldl (recheckNameStep gm ch) (callerSym, [], [])).2.1.isEmpty
       then acc.2
       else mapInsert ch (ns.foldl (recheckNameStep gm ch) (callerSym, [], [])).2.1 acc.2) := by
  unfold recheckCaller
  rw [show removeSymbol acc.1 (ch, ns).1 = (some callerSym, sweepStore acc.1 ch) from
    removeSymbol_found acc.1 ch callerSym h]

/-- Processing one unresolved entry preserves store well-formedness,
preserves which identities are present, and only adds leftover lists whose
names all miss the global map. -/
theorem recheckCaller_IA (gm : List (String × List String))
    (acc : Store × List (String × List String)) (entry : String × List String)
    (hwf : StoreWF acc.1)
    (hstill : ∀ e ∈ acc.2, ∀ r ∈ e.2, mapLookup gm r = none) :
    StoreWF (recheckCaller gm acc entry).1 ∧
    (∀ k, (mapLookup (recheckCaller gm acc entry).1 k).isSome =
      (mapLookup acc.1 k).isSome) ∧
    (∀ e ∈ (recheckCaller gm acc entry).2, ∀ r ∈ e.2, mapLookup gm r = none) := by
  obtain ⟨ch, ns⟩ := entry
  cases hl : mapLookup acc.1 ch with
  | none =>
      rw [recheckCaller_not_found gm acc (ch, ns) hl]
      exact ⟨hwf, fun k => rfl, hstill⟩
  | some callerSym =>
      rw [recheckCaller_found_pair gm acc ch ns callerSym hl]
      have hch : callerSym.hash = ch := hwf (ch, callerSym) (mapLookup_mem acc.1 ch callerSym hl)
      have hrhash :
          Symbol.hash (ns.foldl (recheckNameStep gm ch) (callerSym, [], [])).1 = ch :=
        (namesFold_sym_fields gm ch ns (callerSym, [], [])).2.1.trans hch
      refine ⟨?_, ?_, ?_⟩
      · exact applyLinkFold_wf _ _
          (StoreWF_addSymbol _ _ (StoreWF_sweepStore acc.1 ch hwf))
      · intro k
        rw [applyLinkFold_isSome]
        by_cases hk : k = ch
        · subst hk
          have hself : mapLookup
              (addSymbol (sweepStore acc.1 k)
                (ns.foldl (recheckNameStep gm k) (callerSym, [], [])).1) k =
              some (ns.foldl (recheckNameStep gm k) (callerSym, [], [])).1 := by
            unfold addSymbol
            rw [hrhash]
            exact mapLookup_mapInsert_self _ _ _
          rw [hself, hl]
          rfl
        · unfold addSymbol
          rw [mapLookup_mapInsert_other _ _ _ _ (by rw [hrhash]; exact fun hc => hk hc.symm)]
          exact sweepStore_isSome acc.1 ch k hk
      · by_cases hemp :
          (ns.foldl (recheckNameStep gm ch) (callerSym, [], [])).2.1.isEmpty
        · rw [if_pos hemp]
          exact hstill
        · rw [if_neg hemp]
          intro e he
          rcases mem_mapInsert _ _ _ e he with h2 | h2
          · rw [h2]
            exact namesFold_leftover gm ch ns (callerSym, [], [])
              (fun x hx => absurd hx (List.not_mem_nil x))
          · exact hstill e h2

/-- Processing the entry of the caller itself establishes the repaired
edge in both directions. -/
theorem recheckCaller_establishes (gm : List (String × List String))
    (acc : Store × List (String × List String)) (callerH nsymH N : String)
    (ns : List String) (callerSym : Symbol) (lst : List String)
    (hl : mapLookup acc.1 callerH = some callerSym)
    (hwf : StoreWF acc.1)
    (hgmN : mapLookup gm N = some lst) (hx : nsymH ∈ lst) (hN : N ∈ ns)
    (hne : nsymH ≠ callerH)
    (hnsymSome : (mapLookup acc.1 nsymH).isSome = true)
    (hstill : ∀ e ∈ acc.2, ∀ r ∈ e.2, mapLookup gm r = none) :
    StoreWF (recheckCaller gm acc (callerH, ns)).1 ∧
    (∃ c2, mapLookup (recheckCaller gm acc (callerH, ns)).1 callerH = some c2 ∧
      nsymH ∈ c2.dependencies) ∧
    (∃ s2, mapLookup (recheckCaller gm acc (callerH, ns)).1 nsymH = some s2 ∧
      callerH ∈ s2.used_by) ∧
    (∀ e ∈ (recheckCaller gm acc (callerH, ns)).2, ∀ r ∈ e.2,
      mapLookup gm r = none) := by
  rw [recheckCaller_found_pair gm acc callerH ns callerSym hl]
  have hch : callerSym.hash = callerH :=
    hwf (callerH, callerSym) (mapLookup_mem acc.1 callerH callerSym hl)
  have hrhash :
      Symbol.hash (ns.foldl (recheckNameStep gm callerH) (callerSym, [], [])).1 = callerH :=
    (namesFold_sym_fields gm callerH ns (callerSym, [], [])).2.1.trans hch
  have hdl := namesFold_dep_link gm callerH ns (callerSym, [], []) N nsymH lst hN hgmN hx hne
  have hst2_caller : mapLookup
      (addSymbol (sweepStore acc.1 callerH)
        (ns.foldl (recheckNameStep gm callerH) (callerSym, [], [])).1) callerH =
      some (ns.foldl (recheckNameStep gm callerH) (callerSym, [], [])).1 := by
    unfold addSymbol
    rw [hrhash]
    exact mapLookup_mapInsert_self _ _ _
  have hst2_nsym : (mapLookup
      (addSymbol (sweepStore acc.1 callerH)
        (ns.foldl (recheckNameStep gm callerH) (callerSym, [], [])).1) nsymH).isSome =
      true := by
    unfold addSymbol
    rw [mapLookup_mapInsert_other _ _ _ _ (by rw [hrhash]; exact fun hc => hne hc.symm)]
    rw [sweepStore_isSome acc.1 callerH nsymH hne]
    exact hnsymSome
  refine ⟨?_, ?_, ?_, ?_⟩
  · exact applyLinkFold_wf _ _
      (StoreWF_addSymbol _ _ (StoreWF_sweepStore acc.1 callerH hwf))
  · obtain ⟨s', hs', hdeps', _, _, _⟩ := applyLinkFold_keeps _ _ callerH _ hst2_caller
    refine ⟨s', hs', ?_⟩
    rw [hdeps']
    exact hdl.1
  · exact applyLinkFold_establish _ _ nsymH callerH hdl.2 hst2_nsym
  · by_cases hemp :
      (ns.foldl (recheckNameStep gm callerH) (callerSym, [], [])).2.1.isEmpty
    · rw [if_pos hemp]
      exact hstill
    · rw [if_neg hemp]
      intro e he
      rcases mem_mapInsert _ _ _ e he with h2 | h2
      · rw [h2]
        exact namesFold_leftover gm callerH ns (callerSym, [], [])
          (fun x hx => absurd hx (List.not_mem_nil x))
      · exact hstill e h2

/-- Processing any other unresolved entry preserves the repaired edge. -/
theorem recheckCaller_IB (gm : List (String × List String))
    (acc : Store × List (String × List String)) (k2 : String) (ns2 : List String)
    (callerH nsymH : String)
    (hk2 : k2 ≠ callerH) (hwf : StoreWF acc.1)
    (hF1 : ∃ c2, mapLookup acc.1 callerH = some c2 ∧ nsymH ∈ c2.dependencies)
    (hF2 : ∃ s2, mapLookup acc.1 nsymH = some s2 ∧ callerH ∈ s2.used_by)
    (hstill : ∀ e ∈ acc.2, ∀ r ∈ e.2, mapLookup gm r = none) :
    StoreWF (recheckCaller gm acc (k2, ns2)).1 ∧
    (∃ c2, mapLookup (recheckCaller gm acc (k2, ns2)).1 callerH = some c2 ∧
      nsymH ∈ c2.dependencies) ∧
    (∃ s2, mapLookup (recheckCaller gm acc (k2, ns2)).1 nsymH = some s2 ∧
      callerH ∈ s2.used_by) ∧
    (∀ e ∈ (recheckCaller gm acc (k2, ns2)).2, ∀ r ∈ e.2, mapLookup gm r = none) := by
  cases hl : mapLookup acc.1 k2 with
  | none =>
      rw [recheckCaller_not_found gm acc (k2, ns2) hl]
      exact ⟨hwf, hF1, hF2, hstill⟩
  | some caller2 =>
      rw [recheckCaller_found_pair gm acc k2 ns2 caller2 hl]
      have hch : caller2.hash = k2 := hwf (k2, caller2) (mapLookup_mem acc.1 k2 caller2 hl)
      have hrhash :
          Symbol.hash (ns2.foldl (recheckNameStep gm k2) (caller2, [], [])).1 = k2 :=
        (namesFold_sym_fields gm k2 ns2 (caller2, [], [])).2.1.trans hch
      obtain ⟨c2, hc2, hc2dep⟩ := hF1
      obtain ⟨s2, hs2, hs2ub⟩ := hF2
      refine ⟨?_, ?_, ?_, ?_⟩
      · exact applyLinkFold_wf _ _
          (StoreWF_addSymbol _ _ (StoreWF_sweepStore acc.1 k2 hwf))
      · have hsw : mapLookup (sweepStore acc.1 k2) callerH =
            some { c2 with used_by := c2.used_by.filter (· ≠ k2) } := by
          rw [sweepStore_lookup acc.1 k2 callerH (fun hc => hk2 hc.symm), hc2]
          rfl
        have hst2 : mapLookup
            (addSymbol (sweepStore acc.1 k2)
              (ns2.foldl (recheckNameStep gm k2) (caller2, [], [])).1) callerH =
            some { c2 with used_by := c2.used_by.filter (· ≠ k2) } := by
          unfold addSymbol
          rw [mapLookup_mapInsert_other _ _ _ _ (by rw [hrhash]; exact hk2)]
          exact hsw
        obtain ⟨s', hs', hdeps', _, _, _⟩ := applyLinkFold_keeps _ _ callerH _ hst2
        refine ⟨s', hs', ?_⟩
        rw [hdeps']
        exact hc2dep
      · by_cases hk2n : k2 = nsymH
        · subst hk2n
          have hsame : caller2 = s2 := by
            have := hl.symm.trans hs2
            exact Option.some.inj this
          subst hsame
          have hub : callerH ∈
              (ns2.foldl (recheckNameStep gm k2) (caller2, [], [])).1.used_by := by
            rw [(namesFold_sym_fields gm k2 ns2 (caller2, [], [])).1]
            exact hs2ub
          have hst2 : mapLookup
              (addSymbol (sweepStore acc.1 k2)
                (ns2.foldl (recheckNameStep gm k2) (caller2, [], [])).1) k2 =
              some (ns2.foldl (recheckNameStep gm k2) (caller2, [], [])).1 := by
            unfold addSymbol
            rw [hrhash]
            exact mapLookup_mapInsert_self _ _ _
          obtain ⟨s', hs', _, _, _, hub'⟩ := applyLinkFold_keeps _ _ k2 _ hst2
          exact ⟨s', hs', hub' callerH hub⟩
        · have hsw : mapLookup (sweepStore acc.1 k2) nsymH =
              some { s2 with used_by := s2.used_by.filter (· ≠ k2) } := by
            rw [sweepStore_lookup acc.1 k2 nsymH (fun hc => hk2n hc.symm), hs2]
            rfl
          have hst2 : mapLookup
              (addSymbol (sweepStore acc.1 k2)
                (ns2.foldl (recheckNameStep gm k2) (caller2, [], [])).1) nsymH =
              some { s2 with used_by := s2.used_by.filter (· ≠ k2) } := by
            unfold addSymbol
            rw [mapLookup_mapInsert_other _ _ _ _
              (by rw [hrhash]; exact fun hc => hk2n hc)]
            exact hsw
          obtain ⟨s', hs', _, _, _, hub'⟩ := applyLinkFold_keeps _ _ nsymH _ hst2
          refine ⟨s', hs', ?_⟩
          refine hub' callerH ?_
          simp only [List.mem_filter]
          exact ⟨hs2ub, by simpa using fun hc => hk2 hc.symm⟩
      · by_cases hemp :
          (ns2.foldl (recheckNameStep gm k2) (caller2, [], [])).2.1.isEmpty
        · rw [if_pos hemp]
          exact hstill
        · rw [if_neg hemp]
          intro e he
          rcases mem_mapInsert _ _ _ e he with h2 | h2
          · rw [h2]
            exact namesFold_leftover gm k2 ns2 (caller2, [], [])
              (fun x hx => absurd hx (List.not_mem_nil x))
          · exact hstill e h2

/-- Once the repaired edge exists, processing the remaining unresolved
entries (all keyed by other callers) preserves it. -/
theorem recheckFold_IB (gm : List (String × List String))
    (L : List (String × List String)) (acc : Store × List (String × List String))
    (callerH nsymH : String)
    (hkeys : ∀ e ∈ L, e.1 ≠ callerH)
    (hwf : StoreWF acc.1)
    (hF1 : ∃ c2, mapLookup acc.1 callerH = some c2 ∧ nsymH ∈ c2.dependencies)
    (hF2 : ∃ s2, mapLookup acc.1 nsymH = some s2 ∧ callerH ∈ s2.used_by)
    (hstill : ∀ e ∈ acc.2, ∀ r ∈ e.2, mapLookup gm r = none) :
    (∃ c2, mapLookup (L.foldl (recheckCaller gm) acc).1 callerH = some c2 ∧
      nsymH ∈ c2.dependencies) ∧
    (∃ s2, mapLookup (L.foldl (recheckCaller gm) acc).1 nsymH = some s2 ∧
      callerH ∈ s2.used_by) ∧
    (∀ e ∈ (L.foldl (recheckCaller gm) acc).2, ∀ r ∈ e.2, mapLookup gm r = none) := by
  induction L generalizing acc with
  | nil => exact ⟨hF1, hF2, hstill⟩
  | cons e rest ih =>
      obtain ⟨k2, ns2⟩ := e
      simp only [List.foldl_cons]
      have hk2 : k2 ≠ callerH := hkeys (k2, ns2) (List.mem_cons_self _ _)
      obtain ⟨hwf', hF1', hF2', hstill'⟩ :=
        recheckCaller_IB gm acc k2 ns2 callerH nsymH hk2 hwf hF1 hF2 hstill
      exact ih _ (fun e2 he2 => hkeys e2 (List.mem_cons_of_mem _ he2)) hwf' hF1' hF2' hstill'

/-- Walking the drained unresolved table establishes the repaired edge for
a recorded caller whose missing name has a definition in the global map,
and leaves no leftover entry containing a name the global map knows. -/
theorem recheckFold_main (gm : List (String × List String))
    (L : List (String × List String)) (acc : Store × List (String × List String))
    (callerH nsymH N : String) (ns : List String) (lst : List String)
    (hmem : (callerH, ns) ∈ L)
    (hnodup : (L.map Prod.fst).Nodup)
    (hN : N ∈ ns) (hgmN : mapLookup gm N = some lst) (hx : nsymH ∈ lst)
    (hne : nsymH ≠ callerH)
    (hwf : StoreWF acc.1)
    (hcallerSome : (mapLookup acc.1 callerH).isSome = true)
    (hnsymSome : (mapLookup acc.1 nsymH).isSome = true)
    (hstill : ∀ e ∈ acc.2, ∀ r ∈ e.2, mapLookup gm r = none) :
    (∃ c2, mapLookup (L.foldl (recheckCaller gm) acc).1 callerH = some c2 ∧
      nsymH ∈ c2.dependencies) ∧
    (∃ s2, mapLookup (L.foldl (recheckCaller gm) acc).1 nsymH = some s2 ∧
      callerH ∈ s2.used_by) ∧
    (∀ e ∈ (L.foldl (recheckCaller gm) acc).2, ∀ r ∈ e.2, mapLookup gm r = none) := by
  induction L generalizing acc with
  | nil => cases hmem
  | cons e rest ih =>
      obtain ⟨k2, ns2⟩ := e
      simp only [List.foldl_cons]
      simp only [List.map_cons, List.nodup_cons] at hnodup
      rcases List.mem_cons.mp hmem with h | h
      · injection h with h1 h2
        subst h1
        subst h2
        obtain ⟨callerSym, hcs⟩ := Option.isSome_iff_exists.mp hcallerSome
        obtain ⟨hwf', hF1', hF2', hstill'⟩ :=
          recheckCaller_establishes gm acc _ nsymH N _ callerSym lst hcs hwf hgmN hx hN
            hne hnsymSome hstill
        refine recheckFold_IB gm rest _ _ nsymH ?_ hwf' hF1' hF2' hstill'
        intro e2 he2 hcontra
        exact hnodup.1 (hcontra ▸ List.mem_map_of_mem Prod.fst he2)
      · have hk2 : k2 ≠ callerH := by
          intro hcontra
          subst hcontra
          exact hnodup.1 (List.mem_map_of_mem Prod.fst h)
        obtain ⟨hwf', hsome', hstill'⟩ := recheckCaller_IA gm acc (k2, ns2) hwf hstill
        refine ih _ h hnodup.2 hwf' ?_ ?_ hstill'
        · rw [hsome' callerH]
          exact hcallerSome
        · rw [hsome' nsymH]
          exact hnsymSome

/-! Behaviour of eviction, insertion and resolution during `index_file`,
towards forward-reference repair. -/

theorem evictFold_isSome (hs : List String) (st : Store) (k : String) (hk : k ∉ hs) :
    (mapLookup (hs.foldl (fun st h => (removeSymbol st h).2) st) k).isSome =
      (mapLookup st k).isSome := by
  induction hs generalizing st with
  | nil => rfl
  | cons h rest ih =>
      simp only [List.foldl_cons]
      have hk1 : k ≠ h := fun hc => hk (hc ▸ List.mem_cons_self h rest)
      have hk2 : k ∉ rest := fun hc => hk (List.mem_cons_of_mem h hc)
      rw [ih _ hk2]
      exact removeSymbol_isSome_other st h k hk1

theorem evictFold_wf (hs : List String) (st : Store) (hwf : StoreWF st) :
    StoreWF (hs.foldl (fun st h => (removeSymbol st h).2) st) := by
  induction hs generalizing st with
  | nil => exact hwf
  | cons h rest ih =>
      simp only [List.foldl_cons]
      exact ih _ (StoreWF_removeSymbol st h hwf)

/-- With duplicate-free keys, a stored symbol of another file is not among
the hashes gathered for eviction. -/
theorem not_mem_oldHashes (st : Store) (path callerH : String) (callerSym : Symbol)
    (hnodup : ((st : List (String × Symbol)).map Prod.fst).Nodup)
    (hl : mapLookup st callerH = some callerSym)
    (hfile : callerSym.file_path ≠ path) :
    callerH ∉ (st : List (String × Symbol)).filterMap
      (fun e => if e.2.file_path = path then some e.1 else none) := by
  intro hmem
  obtain ⟨e, he, heq⟩ := List.mem_filterMap.mp hmem
  by_cases hp : e.2.file_path = path
  · rw [if_pos hp] at heq
    injection heq with heq1
    subst heq1
    have he2 : (e.1, e.2) ∈ st := by simpa using he
    have := mem_of_lookup_of_keys_nodup st e.1 callerSym e.2 hnodup hl he2
    rw [this] at hp
    exact hfile hp
  · rw [if_neg hp] at heq
    cases heq

theorem removeDeletedSymbolsInFile_parts (idx : Indexer) (path : String) :
    (removeDeletedSymbolsInFile idx path).file_hashes = idx.file_hashes ∧
    (removeDeletedSymbolsInFile idx path).unresolved = idx.unresolved := ⟨rfl, rfl⟩

theorem insertNewSymbols_lookup_other (newSymbols : List Symbol) (st : Store)
    (gmap : List (String × List String)) (k : String)
    (hk : ∀ s ∈ newSymbols, s.hash ≠ k) :
    mapLookup (insertNewSymbols st gmap newSymbols).1 k = mapLookup st k := by
  induction newSymbols generalizing st gmap with
  | nil => rfl
  | cons s rest ih =>
      simp only [insertNewSymbols, List.foldl_cons]
      have h1 := ih (addSymbol st s) (mapPush s.name s.hash gmap)
        (fun s2 hs2 => hk s2 (List.mem_cons_of_mem s hs2))
      simp only [insertNewSymbols] at h1
      rw [h1]
      exact mapLookup_mapInsert_other st s.hash k s (hk s (List.mem_cons_self s rest))

theorem insertNewSymbols_lookup_self (newSymbols : List Symbol) (st : Store)
    (gmap : List (String × List String)) (nsym : Symbol)
    (hmem : nsym ∈ newSymbols) (hnodup : (newSymbols.map Symbol.hash).Nodup) :
    mapLookup (insertNewSymbols st gmap newSymbols).1 nsym.hash = some nsym := by
  induction newSymbols generalizing st gmap with
  | nil => cases hmem
  | cons s rest ih =>
      simp only [insertNewSymbols, List.foldl_cons]
      simp only [List.map_cons, List.nodup_cons] at hnodup
      rcases List.mem_cons.mp hmem with h | h
      · subst h
        have hother : ∀ s2 ∈ rest, s2.hash ≠ nsym.hash := by
          intro s2 hs2 hc
          exact hnodup.1 (hc ▸ List.mem_map_of_mem Symbol.hash hs2)
        have h1 := insertNewSymbols_lookup_other rest (addSymbol st nsym)
          (mapPush nsym.name nsym.hash gmap) nsym.hash hother
        simp only [insertNewSymbols] at h1
        rw [h1]
        exact mapLookup_mapInsert_self st nsym.hash nsym
      · have h1 := ih (addSymbol st s) (mapPush s.name s.hash gmap) h hnodup.2
        simpa only [insertNewSymbols] using h1

theorem insertNewSymbols_wf (newSymbols : List Symbol) (st : Store)
    (gmap : List (String × List String)) (hwf : StoreWF st) :
    StoreWF (insertNewSymbols st gmap newSymbols).1 := by
  induction newSymbols generalizing st gmap with
  | nil => exact hwf
  | cons s rest ih =>
      simp only [insertNewSymbols, List.foldl_cons]
      have h1 := ih (addSymbol st s) (mapPush s.name s.hash gmap)
        (StoreWF_addSymbol st s hwf)
      simpa only [insertNewSymbols] using h1

/-- Presence, name and identity of every stored symbol are preserved. -/
def StoreKeeps (st st' : Store) : Prop :=
  ∀ k s, mapLookup st k = some s →
    ∃ s', mapLookup st' k = some s' ∧ s'.name = s.name ∧ s'.hash = s.hash

theorem StoreKeeps_refl (st : Store) : StoreKeeps st st :=
  fun _ s h => ⟨s, h, rfl, rfl⟩

theorem StoreKeeps_trans (a b c : Store) (h1 : StoreKeeps a b) (h2 : StoreKeeps b c) :
    StoreKeeps a c := by
  intro k s h
  obtain ⟨s1, hs1, hn1, hh1⟩ := h1 k s h
  obtain ⟨s2, hs2, hn2, hh2⟩ := h2 k s1 hs1
  exact ⟨s2, hs2, hn2.trans hn1, hh2.trans hh1⟩

theorem addUsedBy_storeKeeps (st : Store) (callee caller : String) :
    StoreKeeps st (addUsedBy st callee caller) := by
  intro k s h
  obtain ⟨s', hs', _, hn, hh, _⟩ := addUsedBy_keeps st callee caller k s h
  exact ⟨s', hs', hn, hh⟩

theorem candFold_store (thisHash : String) (cands : List String)
    (acc : List String × Store × List (String × List String)) :
    StoreKeeps acc.2.1
      ((cands.foldl
        (fun a c =>
          if c ≠ thisHash then (hsInsert a.1 c, addUsedBy a.2.1 c thisHash, a.2.2) else a)
        acc).2.1) ∧
    ((cands.foldl
        (fun a c =>
          if c ≠ thisHash then (hsInsert a.1 c, addUsedBy a.2.1 c thisHash, a.2.2) else a)
        acc).2.2 = acc.2.2) ∧
    (StoreWF acc.2.1 →
      StoreWF ((cands.foldl
        (fun a c =>
          if c ≠ thisHash then (hsInsert a.1 c, addUsedBy a.2.1 c thisHash, a.2.2) else a)
        acc).2.1)) := by
  induction cands generalizing acc with
  | nil => exact ⟨StoreKeeps_refl _, rfl, fun h => h⟩
  | cons c cs ih =>
      simp only [List.foldl_cons]
      by_cases h : c ≠ thisHash
      · simp only [if_pos h]
        obtain ⟨hk, hu, hw⟩ := ih (hsInsert acc.1 c, addUsedBy acc.2.1 c thisHash, acc.2.2)
        refine ⟨StoreKeeps_trans _ _ _ (addUsedBy_storeKeeps acc.2.1 c thisHash) hk, hu, ?_⟩
        intro hwf
        exact hw (StoreWF_addUsedBy acc.2.1 c thisHash hwf)
      · simp only [if_neg h]
        exact ih acc

theorem depFold_store (localMap globalMap : List (String × List String))
    (thisHash : String) (oldDeps : List String)
    (acc : List String × Store × List (String × List String)) :
    StoreKeeps acc.2.1 ((oldDeps.foldl (resolveDepStep localMap globalMap thisHash) acc).2.1) ∧
    (StoreWF acc.2.1 →
      StoreWF ((oldDeps.foldl (resolveDepStep localMap globalMap thisHash) acc).2.1)) ∧
    (∀ k, k ≠ thisHash →
      mapLookup ((oldDeps.foldl (resolveDepStep localMap globalMap thisHash) acc).2.2) k =
        mapLookup acc.2.2 k) := by
  induction oldDeps generalizing acc with
  | nil => exact ⟨StoreKeeps_refl _, fun h => h, fun k _ => rfl⟩
  | cons raw rest ih =>
      simp only [List.foldl_cons]
      obtain ⟨hk1, hw1, hu1⟩ := ih (resolveDepStep localMap globalMap thisHash acc raw)
      have hstep : StoreKeeps acc.2.1 (resolveDepStep localMap globalMap thisHash acc raw).2.1 ∧
          (StoreWF acc.2.1 →
            StoreWF (resolveDepStep localMap globalMap thisHash acc raw).2.1) ∧
          (∀ k, k ≠ thisHash →
            mapLookup (resolveDepStep localMap globalMap thisHash acc raw).2.2 k =
              mapLookup acc.2.2 k) := by
        unfold resolveDepStep
        by_cases hempty : (resolveOneDependency raw localMap globalMap).isEmpty = true
        · rw [if_pos hempty]
          refine ⟨StoreKeeps_refl _, fun h => h, ?_⟩
          intro k hkne
          exact mapLookup_mapPush_other acc.2.2 thisHash k raw (fun hc => hkne hc.symm)
        · rw [if_neg hempty]
          obtain ⟨ha, hb, hc⟩ := candFold_store thisHash _ acc
          exact ⟨ha, hc, fun k _ => by rw [hb]⟩
      refine ⟨StoreKeeps_trans _ _ _ hstep.1 hk1, ?_, ?_⟩
      · intro hwf
        exact hw1 (hstep.2.1 hwf)
      · intro k hkne
        rw [hu1 k hkne, hstep.2.2 k hkne]

theorem resolveSymbol_not_found (localMap globalMap : List (String × List String))
    (acc : Store × List (String × List String)) (sym : Symbol)
    (h : mapLookup acc.1 sym.hash = none) :
    resolveSymbol localMap globalMap acc sym = acc := by
  unfold resolveSymbol
  simp only []
  rw [removeSymbol_not_found acc.1 sym.hash h]

theorem resolveSymbol_found (localMap globalMap : List (String × List String))
    (acc : Store × List (String × List String)) (sym : Symbol) (updatedSym : Symbol)
    (h : mapLookup acc.1 sym.hash = some updatedSym) :
    resolveSymbol localMap globalMap acc sym =
      (addSymbol
        ((updatedSym.dependencies.foldl (resolveDepStep localMap globalMap sym.hash)
          ([], sweepStore acc.1 sym.hash, acc.2)).2.1)
        { updatedSym with
          dependencies :=
            (updatedSym.dependencies.foldl (resolveDepStep localMap globalMap sym.hash)
              ([], sweepStore acc.1 sym.hash, acc.2)).1 },
       (updatedSym.dependencies.foldl (resolveDepStep localMap globalMap sym.hash)
         ([], sweepStore acc.1 sym.hash, acc.2)).2.2) := by
  unfold resolveSymbol
  simp only []
  rw [removeSymbol_found acc.1 sym.hash updatedSym h]

theorem resolveSymbol_facts (localMap globalMap : List (String × List String))
    (acc : Store × List (String × List String)) (sym : Symbol)
    (hwf : StoreWF acc.1) :
    StoreWF (resolveSymbol localMap globalMap acc sym).1 ∧
    StoreKeeps acc.1 (resolveSymbol localMap globalMap acc sym).1 ∧
    (∀ k, k ≠ sym.hash →
      mapLookup (resolveSymbol localMap globalMap acc sym).2 k = mapLookup acc.2 k) := by
  cases hl : mapLookup acc.1 sym.hash with
  | none =>
      rw [resolveSymbol_not_found localMap globalMap acc sym hl]
      exact ⟨hwf, StoreKeeps_refl _, fun k _ => rfl⟩
  | some updatedSym =>
      rw [resolveSymbol_found localMap globalMap acc sym updatedSym hl]
      have hch : updatedSym.hash = sym.hash :=
        hwf (sym.hash, updatedSym) (mapLookup_mem acc.1 sym.hash updatedSym hl)
      obtain ⟨hk, hw, hu⟩ := depFold_store localMap globalMap sym.hash
        updatedSym.dependencies ([], sweepStore acc.1 sym.hash, acc.2)
      refine ⟨?_, ?_, ?_⟩
      · exact StoreWF_addSymbol _ _ (hw (StoreWF_sweepStore acc.1 sym.hash hwf))
      · intro k s hs
        by_cases hksym : k = sym.hash
        · subst hksym
          have hsame : s = updatedSym := Option.some.inj (hl.symm.trans hs).symm
          refine ⟨{ updatedSym with
              dependencies :=
                (updatedSym.dependencies.foldl (resolveDepStep localMap globalMap sym.hash)
                  ([], sweepStore acc.1 sym.hash, acc.2)).1 }, ?_,
            by rw [hsame], by rw [hsame, Symbol.hash_set_dependencies]⟩
          unfold addSymbol
          rw [Symbol.hash_set_dependencies, hch]
          exact mapLookup_mapInsert_self _ _ _
        · have hsw : mapLookup (sweepStore acc.1 sym.hash) k =
              some { s with used_by := s.used_by.filter (· ≠ sym.hash) } := by
            rw [sweepStore_lookup acc.1 sym.hash k hksym, hs]
            rfl
          obtain ⟨s2, hs2, hn2, hh2⟩ := hk k _ hsw
          refine ⟨s2, ?_, hn2, hh2.trans (Symbol.hash_set_used_by s _)⟩
          unfold addSymbol
          rw [mapLookup_mapInsert_other _ _ _ _
            (by rw [Symbol.hash_set_dependencies, hch]; exact fun hc => hksym hc.symm)]
          exact hs2
      · intro k hkne
        exact hu k hkne

theorem resolveFold_facts (localMap globalMap : List (String × List String))
    (newSymbols : List Symbol) (acc : Store × List (String × List String))
    (hwf : StoreWF acc.1) :
    StoreWF (newSymbols.foldl (resolveSymbol localMap globalMap) acc).1 ∧
    StoreKeeps acc.1 (newSymbols.foldl (resolveSymbol localMap globalMap) acc).1 ∧
    (∀ k, (∀ sym ∈ newSymbols, sym.hash ≠ k) →
      mapLookup (newSymbols.foldl (resolveSymbol localMap globalMap) acc).2 k =
        mapLookup acc.2 k) := by
  induction newSymbols generalizing acc with
  | nil => exact ⟨hwf, StoreKeeps_refl _, fun k _ => rfl⟩
  | cons sym rest ih =>
      simp only [List.foldl_cons]
      obtain ⟨hw1, hk1, hu1⟩ := resolveSymbol_facts localMap globalMap acc sym hwf
      obtain ⟨hw2, hk2, hu2⟩ := ih (resolveSymbol localMap globalMap acc sym) hw1
      refine ⟨hw2, StoreKeeps_trans _ _ _ hk1 hk2, ?_⟩
      intro k hks
      rw [hu2 k (fun s2 hs2 => hks s2 (List.mem_cons_of_mem sym hs2))]
      exact hu1 k (fun hc => hks sym (List.mem_cons_self sym rest) hc.symm)

/-! Behaviour of the name map built from the store. -/

theorem mapLookup_mapPush_self_some (m : List (String × List String)) (k v : String)
    (lst : List String) (h : mapLookup m k = some lst) :
    mapLookup (mapPush k v m) k = some (lst ++ [v]) := by
  induction m with
  | nil => cases h
  | cons e rest ih =>
      obtain ⟨k', l⟩ := e
      by_cases h2 : k' = k
      · subst h2
        rw [mapLookup, if_pos rfl] at h
        injection h with h3
        subst h3
        unfold mapPush
        rw [if_pos rfl]
        rw [mapLookup, if_pos rfl]
      · rw [mapLookup, if_neg h2] at h
        unfold mapPush
        rw [if_neg h2]
        rw [mapLookup, if_neg h2]
        exact ih h

theorem mapLookup_mapPush_self_none (m : List (String × List String)) (k v : String)
    (h : mapLookup m k = none) : mapLookup (mapPush k v m) k = some [v] := by
  induction m with
  | nil => simp [mapPush, mapLookup]
  | cons e rest ih =>
      obtain ⟨k', l⟩ := e
      by_cases h2 : k' = k
      · subst h2
        rw [mapLookup, if_pos rfl] at h
        cases h
      · rw [mapLookup, if_neg h2] at h
        unfold mapPush
        rw [if_neg h2]
        rw [mapLookup, if_neg h2]
        exact ih h

theorem mapPush_mem_push (m : List (String × List String)) (k v : String) :
    ∃ lst, mapLookup (mapPush k v m) k = some lst ∧ v ∈ lst := by
  cases h : mapLookup m k with
  | none =>
      exact ⟨[v], mapLookup_mapPush_self_none m k v h, List.mem_singleton.mpr rfl⟩
  | some lst =>
      exact ⟨lst ++ [v], mapLookup_mapPush_self_some m k v lst h,
        List.mem_append_right _ (List.mem_singleton.mpr rfl)⟩

theorem mapPush_mem_mono (m : List (String × List String)) (k2 v nm x : String)
    (lst : List String) (h : mapLookup m nm = some lst) (hx : x ∈ lst) :
    ∃ lst', mapLookup (mapPush k2 v m) nm = some lst' ∧ x ∈ lst' := by
  by_cases hk : k2 = nm
  · subst hk
    exact ⟨lst ++ [v], mapLookup_mapPush_self_some m k2 v lst h,
      List.mem_append_left _ hx⟩
  · rw [mapLookup_mapPush_other m k2 nm v hk]
    exact ⟨lst, h, hx⟩

theorem buildFold_mono (st : List (String × Symbol))
    (acc : List (String × List String)) (nm x : String) (lst : List String)
    (h : mapLookup acc nm = some lst) (hx : x ∈ lst) :
    ∃ lst', mapLookup (st.foldl (fun m e => mapPush e.2.name e.1 m) acc) nm = some lst' ∧
      x ∈ lst' := by
  induction st generalizing acc lst with
  | nil => exact ⟨lst, h, hx⟩
  | cons e rest ih =>
      simp only [List.foldl_cons]
      obtain ⟨lst1, h1, hx1⟩ := mapPush_mem_mono acc e.2.name e.1 nm x lst h hx
      exact ih _ lst1 h1 hx1

theorem buildFold_mem (st : List (String × Symbol))
    (acc : List (String × List String)) (k : String) (s : Symbol)
    (hmem : (k, s) ∈ st) :
    ∃ lst, mapLookup (st.foldl (fun m e => mapPush e.2.name e.1 m) acc) s.name = some lst ∧
      k ∈ lst := by
  induction st generalizing acc with
  | nil => cases hmem
  | cons e rest ih =>
      simp only [List.foldl_cons]
      rcases List.mem_cons.mp hmem with h | h
      · subst h
        obtain ⟨lst1, h1, hk1⟩ := mapPush_mem_push acc s.name k
        exact buildFold_mono rest _ s.name k lst1 h1 hk1
      · exact ih _ h

theorem buildNameMap_mem (st : Store) (k : String) (s : Symbol)
    (hl : mapLookup st k = some s) :
    ∃ lst, mapLookup (buildNameMap st) s.name = some lst ∧ k ∈ lst :=
  buildFold_mem st [] k s (mapLookup_mem st k s hl)

/-! Duplicate-free keys of the unresolved table survive resolution. -/

theorem mem_mapPush_keys (m : List (String × List String)) (k a v : String)
    (h : a ∈ (mapPush k v m).map Prod.fst) : a ∈ m.map Prod.fst ∨ a = k := by
  induction m with
  | nil =>
      simp [mapPush] at h
      exact Or.inr h
  | cons e rest ih =>
      obtain ⟨c, l⟩ := e
      by_cases h3 : c = k
      · simp only [mapPush, if_pos h3, List.map_cons, List.mem_cons] at h
        rcases h with h | h
        · exact Or.inl (by rw [List.map_cons, h]; exact List.mem_cons_self c _)
        · refine Or.inl ?_
          rw [List.map_cons]
          exact List.mem_cons.mpr (Or.inr h)
      · simp only [mapPush, if_neg h3, List.map_cons, List.mem_cons] at h
        rcases h with h | h
        · refine Or.inl ?_
          rw [List.map_cons, h]
          exact List.mem_cons_self c _
        · rcases ih h with h4 | h4
          · refine Or.inl ?_
            rw [List.map_cons]
            exact List.mem_cons.mpr (Or.inr h4)
          · exact Or.inr h4

theorem mapPush_keys_nodup (m : List (String × List String)) (k v : String)
    (h : (m.map Prod.fst).Nodup) : ((mapPush k v m).map Prod.fst).Nodup := by
  induction m with
  | nil => simp [mapPush]
  | cons e rest ih =>
      obtain ⟨k', l⟩ := e
      simp only [List.map_cons, List.nodup_cons] at h
      by_cases h2 : k' = k
      · subst h2
        unfold mapPush
        rw [if_pos rfl]
        simp only [List.map_cons, List.nodup_cons]
        exact h
      · have hmem : k' ∉ ((mapPush k v rest).map Prod.fst) := by
          intro hmem
          rcases mem_mapPush_keys rest k k' v hmem with h4 | h4
          · exact h.1 h4
          · exact h2 h4
        simp only [mapPush, if_neg h2, List.map_cons, List.nodup_cons]
        exact ⟨hmem, ih h.2⟩

theorem candFold_unres_eq (thisHash : String) (cands : List String)
    (acc : List String × Store × List (String × List String)) :
    (cands.foldl
      (fun a c =>
        if c ≠ thisHash then (hsInsert a.1 c, addUsedBy a.2.1 c thisHash, a.2.2) else a)
      acc).2.2 = acc.2.2 :=
  (candFold_store thisHash cands acc).2.1

theorem depFold_unres_nodup (localMap globalMap : List (String × List String))
    (thisHash : String) (oldDeps : List String)
    (acc : List String × Store × List (String × List String))
    (h : (acc.2.2.map Prod.fst).Nodup) :
    (((oldDeps.foldl (resolveDepStep localMap globalMap thisHash) acc).2.2).map
      Prod.fst).Nodup := by
  induction oldDeps generalizing acc with
  | nil => exact h
  | cons raw rest ih =>
      simp only [List.foldl_cons]
      refine ih _ ?_
      unfold resolveDepStep
      by_cases hempty : (resolveOneDependency raw localMap globalMap).isEmpty = true
      · rw [if_pos hempty]
        exact mapPush_keys_nodup acc.2.2 thisHash raw h
      · rw [if_neg hempty]
        rw [candFold_unres_eq]
        exact h

theorem resolveSymbol_unres_nodup (localMap globalMap : List (String × List String))
    (acc : Store × List (String × List String)) (sym : Symbol)
    (h : (acc.2.map Prod.fst).Nodup) :
    (((resolveSymbol localMap globalMap acc sym).2).map Prod.fst).Nodup := by
  cases hl : mapLookup acc.1 sym.hash with
  | none =>
      rw [resolveSymbol_not_found localMap globalMap acc sym hl]
      exact h
  | some updatedSym =>
      rw [resolveSymbol_found localMap globalMap acc sym updatedSym hl]
      exact depFold_unres_nodup localMap globalMap sym.hash updatedSym.dependencies
        ([], sweepStore acc.1 sym.hash, acc.2) h

theorem resolveFold_unres_nodup (localMap globalMap : List (String × List String))
    (newSymbols : List Symbol) (acc : Store × List (String × List String))
    (h : (acc.2.map Prod.fst).Nodup) :
    (((newSymbols.foldl (resolveSymbol localMap globalMap) acc).2).map Prod.fst).Nodup := by
  induction newSymbols generalizing acc with
  | nil => exact h
  | cons sym rest ih =>
      simp only [List.foldl_cons]
      exact ih _ (resolveSymbol_unres_nodup localMap globalMap acc sym h)

/-- The components of the index produced by `index_file` on a changed
file: eviction, then insertion, then resolution over the new symbols. -/
theorem indexFile_changed_parts (idx : Indexer) (path c : String)
    (parse : String → Option (List Symbol)) (newSymbols : List Symbol) (idx2 : Indexer)
    (hchanged : hasChanged idx.file_hashes path (fileFingerprint c) = true)
    (hparse : parse c = some newSymbols)
    (h : indexFile idx path (some c) parse = some idx2) :
    idx2.symbol_store =
      (newSymbols.foldl
        (resolveSymbol (buildLocalNameMap newSymbols)
          (insertNewSymbols (removeDeletedSymbolsInFile idx path).symbol_store
            (buildNameMap (removeDeletedSymbolsInFile idx path).symbol_store) newSymbols).2)
        ((insertNewSymbols (removeDeletedSymbolsInFile idx path).symbol_store
          (buildNameMap (removeDeletedSymbolsInFile idx path).symbol_store) newSymbols).1,
         idx.unresolved)).1 ∧
    idx2.unresolved =
      (newSymbols.foldl
        (resolveSymbol (buildLocalNameMap newSymbols)
          (insertNewSymbols (removeDeletedSymbolsInFile idx path).symbol_store
            (buildNameMap (removeDeletedSymbolsInFile idx path).symbol_store) newSymbols).2)
        ((insertNewSymbols (removeDeletedSymbolsInFile idx path).symbol_store
          (buildNameMap (removeDeletedSymbolsInFile idx path).symbol_store) newSymbols).1,
         idx.unresolved)).2 := by
  have h' : (if hasChanged idx.file_hashes path (fileFingerprint c) = true then
      parseAndIndexFile (removeDeletedSymbolsInFile idx path) path
        (fileFingerprint c) c parse
    else some idx) = some idx2 := h
  rw [if_pos hchanged] at h'
  unfold parseAndIndexFile at h'
  rw [hparse] at h'
  injection h' with h2
  constructor
  · rw [← h2]
    rfl
  · rw [← h2]
    rfl

/-- C5: forward-reference repair. If, after indexing file A, the caller
symbol of A is recorded in the unresolved table under the raw name N (the
parenthetical of the claim), and a changed file B whose parse contains a
symbol named N is indexed afterwards, then after `recheck_unresolved` the
caller's dependencies contain the identity of that symbol, its used_by
contains the caller's identity, and no unresolved entry mentions N. The
side conditions state that the index is a well-formed store with
duplicate-free keys and that the identities of the new symbols of B are
fresh, which the engine guarantees by treating the SHA-256 identities as
collision-free. -/
theorem C5_forward_reference_repair
    (σ1 σ2 σ3 : Indexer) (A B cB callerH N : String) (ns : List String)
    (parseB : String → Option (List Symbol)) (newSyms : List Symbol)
    (nsym callerSym : Symbol)
    (hwf : StoreWF σ1.symbol_store)
    (hstoreNodup : (σ1.symbol_store.map Prod.fst).Nodup)
    (hunNodup : (σ1.unresolved.map Prod.fst).Nodup)
    (hun : mapLookup σ1.unresolved callerH = some ns)
    (hN : N ∈ ns)
    (hcaller : mapLookup σ1.symbol_store callerH = some callerSym)
    (hfileA : callerSym.file_path = A)
    (hAB : A ≠ B)
    (hchanged : hasChanged σ1.file_hashes B (fileFingerprint cB) = true)
    (hparse : parseB cB = some newSyms)
    (hnsym : nsym ∈ newSyms)
    (hname : nsym.name = N)
    (hnocol : ∀ s ∈ newSyms, s.hash ≠ callerH)
    (hnodupNew : (newSyms.map Symbol.hash).Nodup)
    (hσ2 : indexFile σ1 B (some cB) parseB = some σ2)
    (hσ3 : σ3 = recheckUnresolved σ2) :
    (∃ c2, mapLookup σ3.symbol_store callerH = some c2 ∧ nsym.hash ∈ c2.dependencies) ∧
    (∃ s2, mapLookup σ3.symbol_store nsym.hash = some s2 ∧ callerH ∈ s2.used_by) ∧
    (∀ e ∈ σ3.unresolved, N ∉ e.2) := by
  obtain ⟨hstore2, hunres2⟩ :=
    indexFile_changed_parts σ1 B cB parseB newSyms σ2 hchanged hparse hσ2
  have hfileB : callerSym.file_path ≠ B := by
    rw [hfileA]
    exact hAB
  have hEV : (removeDeletedSymbolsInFile σ1 B).symbol_store =
      ((σ1.symbol_store : List (String × Symbol)).filterMap
        (fun e => if e.2.file_path = B then some e.1 else none)).foldl
        (fun st h => (removeSymbol st h).2) σ1.symbol_store := rfl
  have hEVcaller : (mapLookup (removeDeletedSymbolsInFile σ1 B).symbol_store
      callerH).isSome = true := by
    rw [hEV]
    rw [evictFold_isSome _ σ1.symbol_store callerH
      (not_mem_oldHashes σ1.symbol_store B callerH callerSym hstoreNodup hcaller hfileB)]
    rw [hcaller]
    rfl
  have hEVwf : StoreWF (removeDeletedSymbolsInFile σ1 B).symbol_store := by
    rw [hEV]
    exact evictFold_wf _ σ1.symbol_store hwf
  have hINScaller : (mapLookup
      (insertNewSymbols (removeDeletedSymbolsInFile σ1 B).symbol_store
        (buildNameMap (removeDeletedSymbolsInFile σ1 B).symbol_store) newSyms).1
      callerH).isSome = true := by
    rw [insertNewSymbols_lookup_other newSyms _ _ callerH hnocol]
    exact hEVcaller
  have hINSnsym : mapLookup
      (insertNewSymbols (removeDeletedSymbolsInFile σ1 B).symbol_store
        (buildNameMap (removeDeletedSymbolsInFile σ1 B).symbol_store) newSyms).1
      nsym.hash = some nsym :=
    insertNewSymbols_lookup_self newSyms _ _ nsym hnsym hnodupNew
  have hINSwf : StoreWF
      (insertNewSymbols (removeDeletedSymbolsInFile σ1 B).symbol_store
        (buildNameMap (removeDeletedSymbolsInFile σ1 B).symbol_store) newSyms).1 :=
    insertNewSymbols_wf newSyms _ _ hEVwf
  obtain ⟨hFwf, hFkeeps, hFunres⟩ :=
    resolveFold_facts (buildLocalNameMap newSyms)
      (insertNewSymbols (removeDeletedSymbolsInFile σ1 B).symbol_store
        (buildNameMap (removeDeletedSymbolsInFile σ1 B).symbol_store) newSyms).2
      newSyms
      ((insertNewSymbols (removeDeletedSymbolsInFile σ1 B).symbol_store
        (buildNameMap (removeDeletedSymbolsInFile σ1 B).symbol_store) newSyms).1,
       σ1.unresolved)
      hINSwf
  have hσ2wf : StoreWF σ2.symbol_store := by
    rw [hstore2]
    exact hFwf
  have hσ2caller : (mapLookup σ2.symbol_store callerH).isSome = true := by
    obtain ⟨c0, hc0⟩ := Option.isSome_iff_exists.mp hINScaller
    obtain ⟨c1, hc1, _, _⟩ := hFkeeps callerH c0 hc0
    rw [hstore2, hc1]
    rfl
  have hσ2nsym : ∃ s2, mapLookup σ2.symbol_store nsym.hash = some s2 ∧ s2.name = N := by
    obtain ⟨s2, hs2, hs2name, _⟩ := hFkeeps nsym.hash nsym hINSnsym
    refine ⟨s2, ?_, hs2name.trans hname⟩
    rw [hstore2]
    exact hs2
  have hσ2un : mapLookup σ2.unresolved callerH = some ns := by
    rw [hunres2]
    rw [hFunres callerH hnocol]
    exact hun
  have hσ2unNodup : (σ2.unresolved.map Prod.fst).Nodup := by
    rw [hunres2]
    exact resolveFold_unres_nodup _ _ newSyms _ hunNodup
  obtain ⟨s2, hs2, hs2name⟩ := hσ2nsym
  obtain ⟨lst, hgm, hnsymlst⟩ := by
    have h := buildNameMap_mem σ2.symbol_store nsym.hash s2 hs2
    rw [hs2name] at h
    exact h
  have hne : nsym.hash ≠ callerH := hnocol nsym hnsym
  have hmain := recheckFold_main (buildNameMap σ2.symbol_store) σ2.unresolved
    (σ2.symbol_store, []) callerH nsym.hash N ns lst
    (mapLookup_mem σ2.unresolved callerH ns hσ2un) hσ2unNodup hN hgm hnsymlst hne
    hσ2wf hσ2caller (by rw [hs2]; rfl)
    (fun e he => absurd he (List.not_mem_nil e))
  have hσ3store : σ3.symbol_store =
      (σ2.unresolved.foldl (recheckCaller (buildNameMap σ2.symbol_store))
        (σ2.symbol_store, [])).1 := by
    rw [hσ3]
    rfl
  have hσ3un : σ3.unresolved =
      (σ2.unresolved.foldl (recheckCaller (buildNameMap σ2.symbol_store))
        (σ2.symbol_store, [])).2 := by
    rw [hσ3]
    rfl
  refine ⟨?_, ?_, ?_⟩
  · rw [hσ3store]
    exact hmain.1
  · rw [hσ3store]
    exact hmain.2.1
  · intro e he hNe
    rw [hσ3un] at he
    have hnone := hmain.2.2 e he N hNe
    exact Option.noConfusion (hgm.symm.trans hnone)

theorem C5_forward_reference_repair_witness :
    (∃ c2, mapLookup fState3.symbol_store fCallerSym.hash = some c2 ∧
      fNsym.hash ∈ c2.dependencies) ∧
    (∃ s2, mapLookup fState3.symbol_store fNsym.hash = some s2 ∧
      fCallerSym.hash ∈ s2.used_by) ∧
    (∀ e ∈ fState3.unresolved, "callee" ∉ e.2) :=
  C5_forward_reference_repair fState1 fState2 fState3 "a.rs" "b.rs" "fn callee() . "
    fCallerSym.hash "callee" ["callee"] fParseB [fNsym] fNsym fCallerSym
    (by decide) (by decide) (by decide) (by decide) (by decide) (by decide) rfl
    (by decide) (by decide) rfl (by decide) rfl (by decide) (by decide)
    (by decide) rfl

end ContextMesh
